import Mathlib

/-!
Verification of the arena server core against its specification.

The development shallowly embeds the Rust sources of the arena server:
the snake HTTP client (snake_client.rs), the leaderboard matchmaker
(leaderboard_matchmaker.rs), the rating engine (leaderboard_ratings.rs)
and the leaderboard model layer (models/leaderboard.rs).

Pure functions are translated to Lean functions; the database-backed
rating engine is translated to an explicit state-passing function over a
record of table contents; the HTTP client is translated to a function of
the observable request outcome. Machine floats (f64) are idealised as
real numbers where the skill-rating mathematics is concerned and as
rationals where only ordering and arithmetic on stored scores matter.
-/

namespace Arena

/-- The four snake moves, mirroring the Move enum used by snake_client.rs. -/
inductive Move where
  | up
  | down
  | left
  | right
deriving DecidableEq, Repr

/-- String form of a move. Modelled from the spec: the wire protocol uses the
lowercase words up, down, left, right as the move strings. -/
def moveStr : Move → String
  | .up => "up"
  | .down => "down"
  | .left => "left"
  | .right => "right"

/-- Model of the Rust str::to_lowercase call (ASCII range, which covers every
input the direction parser compares against). -/
def rustToLowercase (s : String) : String :=
  ⟨s.data.map Char.toLower⟩

/-- Translation of parse_direction from snake_client.rs: lowercase the input
and match it against the four direction words. -/
def parse_direction (s : String) : Option Move :=
  if rustToLowercase s = "up" then some .up
  else if rustToLowercase s = "down" then some .down
  else if rustToLowercase s = "left" then some .left
  else if rustToLowercase s = "right" then some .right
  else none

/-- Response from the move endpoint of a snake, as deserialised by serde. -/
structure MoveResponse where
  direction : String
  shout : Option String
deriving DecidableEq, Repr

/-- Result of a move request including timing info (snake_client.rs). -/
structure MoveResult where
  snake_id : String
  direction : Move
  latency_ms : Option Int
  timed_out : Bool
  shout : Option String
deriving DecidableEq, Repr

/-- Observable outcome of the HTTP send plus body deserialisation performed by
request_move: the tokio timeout fired, the transport failed, or an HTTP
response arrived whose body either parsed as a MoveResponse or did not. -/
inductive SendOutcome where
  | timeout
  | netError
  | success (parsed : Option MoveResponse)
deriving DecidableEq, Repr

/-- Translation of request_move from snake_client.rs, as a function of the
request outcome. The elapsed argument is the measured wall time in
milliseconds. Every branch of the Rust match produces a MoveResult, so the
function is total: request_move never fails. -/
def request_move (outcome : SendOutcome) (snakeId : String) (elapsed : Int)
    (last_direction : Option Move) : MoveResult :=
  match outcome with
  | .success (some mr) =>
      { snake_id := snakeId
        direction := (parse_direction mr.direction).getD (last_direction.getD .up)
        latency_ms := some elapsed
        timed_out := false
        shout := mr.shout }
  | .success none =>
      { snake_id := snakeId
        direction := last_direction.getD .up
        latency_ms := some elapsed
        timed_out := false
        shout := none }
  | .netError =>
      { snake_id := snakeId
        direction := last_direction.getD .up
        latency_ms := none
        timed_out := true
        shout := none }
  | .timeout =>
      { snake_id := snakeId
        direction := last_direction.getD .up
        latency_ms := none
        timed_out := true
        shout := none }

/-- C4: request_move never fails and applies the fallback policy. On timeout
or on a network/transport error it returns a MoveResult with timed_out true,
direction equal to the last move (or up when there is none) and no latency;
on an HTTP success whose body fails to parse as a move response it returns
the same direction fallback with timed_out false and the measured latency
recorded. Totality of request_move is by construction. -/
theorem request_move_fallback_policy (snakeId : String) (elapsed : Int)
    (last : Option Move) :
    request_move .timeout snakeId elapsed last =
      { snake_id := snakeId, direction := last.getD .up, latency_ms := none,
        timed_out := true, shout := none } ∧
    request_move .netError snakeId elapsed last =
      { snake_id := snakeId, direction := last.getD .up, latency_ms := none,
        timed_out := true, shout := none } ∧
    request_move (.success none) snakeId elapsed last =
      { snake_id := snakeId, direction := last.getD .up,
        latency_ms := some elapsed, timed_out := false, shout := none } :=
  ⟨rfl, rfl, rfl⟩

/-- Whitespace characters as recognised by the standard is-whitespace tests. -/
def isWsChar (c : Char) : Bool :=
  c == ' ' || c == '\t' || c == '\n' || c == '\x0d'

theorem toLower_of_isWsChar {c : Char} (h : isWsChar c = true) :
    Char.toLower c = c := by
  have h2 : c = ' ' ∨ c = '\t' ∨ c = '\n' ∨ c = '\x0d' := by
    simpa [isWsChar, or_assoc] using h
  rcases h2 with h2 | h2 | h2 | h2 <;> (subst h2; decide)

theorem rustToLowercase_append (s t : String) :
    rustToLowercase (s ++ t) = rustToLowercase s ++ rustToLowercase t := by
  apply String.ext
  simp [rustToLowercase, String.data_append]

theorem data_rustToLowercase (s : String) :
    (rustToLowercase s).data = s.data.map Char.toLower := rfl

theorem string_ne_of_data_ne {s t : String} (h : s.data ≠ t.data) : s ≠ t := by
  intro hst
  exact h (by rw [hst])

theorem data_ne_nil_of_ne_empty {s : String} (h : s ≠ "") : s.data ≠ [] := by
  intro hd
  exact h (String.ext hd)

theorem parse_direction_eq_none {s : String}
    (h1 : rustToLowercase s ≠ "up") (h2 : rustToLowercase s ≠ "down")
    (h3 : rustToLowercase s ≠ "left") (h4 : rustToLowercase s ≠ "right") :
    parse_direction s = none := by
  unfold parse_direction
  rw [if_neg h1, if_neg h2, if_neg h3, if_neg h4]

/-- The lowercasing of a string with a leading whitespace character cannot be
a string whose first character is not whitespace. -/
theorem lower_leading_ws_ne (pad w t : String) (hpad : pad.data ≠ [])
    (hws : pad.data.all isWsChar = true)
    (ht : ∃ d ds, t.data = d :: ds ∧ isWsChar d = false) :
    rustToLowercase (pad ++ w) ≠ t := by
  obtain ⟨c, cs, hcs⟩ := List.exists_cons_of_ne_nil hpad
  obtain ⟨d, ds, htd, hd⟩ := ht
  intro heq
  have hdata : (rustToLowercase (pad ++ w)).data = t.data := by rw [heq]
  rw [data_rustToLowercase, String.data_append, hcs, htd] at hdata
  simp only [List.map_append, List.map_cons, List.cons_append,
    List.cons.injEq] at hdata
  have hcws : isWsChar c = true := by
    have := List.all_eq_true.mp hws c (by rw [hcs]; exact List.mem_cons_self c cs)
    exact this
  have hcd : c = d := by
    have := hdata.1
    rwa [toLower_of_isWsChar hcws] at this
  rw [hcd] at hcws
  rw [hcws] at hd
  simp at hd

theorem mem_of_getLast_eq {α : Type} : ∀ (l : List α) (x : α),
    l.getLast? = some x → x ∈ l
  | [], _, h => by simp at h
  | [a], x, h => by
      simp [List.getLast?] at h
      simp [h]
  | a :: b :: l, x, h => by
      have h2 : (b :: l).getLast? = some x := by
        rwa [List.getLast?_cons_cons] at h
      exact List.mem_cons_of_mem a (mem_of_getLast_eq (b :: l) x h2)

/-- The lowercasing of a string with a trailing whitespace character cannot be
a string whose last character is not whitespace. -/
theorem lower_trailing_ws_ne (pad w t : String) (hpad : pad.data ≠ [])
    (hws : pad.data.all isWsChar = true)
    (ht : ∃ e, t.data.getLast? = some e ∧ isWsChar e = false) :
    rustToLowercase (w ++ pad) ≠ t := by
  obtain ⟨e, hte, he⟩ := ht
  intro heq
  have hdata : (rustToLowercase (w ++ pad)).data = t.data := by rw [heq]
  rw [data_rustToLowercase, String.data_append, List.map_append] at hdata
  have hne : (pad.data.map Char.toLower) ≠ [] := by
    intro h0
    exact hpad (List.map_eq_nil_iff.mp h0)
  obtain ⟨x, hx⟩ := Option.isSome_iff_exists.mp
    (List.getLast?_isSome.mpr hne)
  have hlast : (w.data.map Char.toLower ++ pad.data.map Char.toLower).getLast?
      = some x := by
    rw [List.getLast?_append, hx]
    rfl
  have hxe : x = e := by
    have h3 := hlast
    rw [hdata, hte] at h3
    exact (Option.some.inj h3).symm
  have hxmem : x ∈ pad.data.map Char.toLower := mem_of_getLast_eq _ _ hx
  obtain ⟨c, hcmem, hcx⟩ := List.mem_map.mp hxmem
  have hcws : isWsChar c = true := List.all_eq_true.mp hws c hcmem
  have hxc : x = c := by rw [← hcx, toLower_of_isWsChar hcws]
  rw [hxc] at hxe
  rw [hxe] at hcws
  rw [hcws] at he
  simp at he

/-- C9: direction parsing round-trips case-insensitively. For each move M,
parse_direction applied to any casing of the string form of M returns M,
while any string with leading or trailing whitespace around a direction word
is rejected. -/
theorem parse_direction_roundtrip_and_whitespace :
    (∀ (m : Move) (s : String), rustToLowercase s = moveStr m →
       parse_direction s = some m) ∧
    (∀ (m : Move) (w pad : String), rustToLowercase w = moveStr m →
       pad ≠ "" → pad.data.all isWsChar = true →
       parse_direction (pad ++ w) = none ∧ parse_direction (w ++ pad) = none) := by
  constructor
  · intro m s h
    cases m <;> (unfold parse_direction; rw [h]; decide)
  · intro m w pad _hw hpad hws
    have hd := data_ne_nil_of_ne_empty hpad
    refine ⟨parse_direction_eq_none ?_ ?_ ?_ ?_, parse_direction_eq_none ?_ ?_ ?_ ?_⟩
    · exact lower_leading_ws_ne pad w "up" hd hws ⟨'u', ['p'], rfl, by decide⟩
    · exact lower_leading_ws_ne pad w "down" hd hws ⟨'d', ['o', 'w', 'n'], rfl, by decide⟩
    · exact lower_leading_ws_ne pad w "left" hd hws ⟨'l', ['e', 'f', 't'], rfl, by decide⟩
    · exact lower_leading_ws_ne pad w "right" hd hws ⟨'r', ['i', 'g', 'h', 't'], rfl, by decide⟩
    · exact lower_trailing_ws_ne pad w "up" hd hws ⟨'p', by decide, by decide⟩
    · exact lower_trailing_ws_ne pad w "down" hd hws ⟨'n', by decide, by decide⟩
    · exact lower_trailing_ws_ne pad w "left" hd hws ⟨'t', by decide, by decide⟩
    · exact lower_trailing_ws_ne pad w "right" hd hws ⟨'t', by decide, by decide⟩

/-- Witness for C9 at concrete inputs: a mixed casing parses, and a direction
word padded with a space on either side is rejected. -/
theorem parse_direction_roundtrip_witness :
    parse_direction "RiGhT" = some .right ∧
    parse_direction (" " ++ "Up") = none ∧
    parse_direction ("Up" ++ " ") = none :=
  ⟨parse_direction_roundtrip_and_whitespace.1 .right "RiGhT" (by decide),
   (parse_direction_roundtrip_and_whitespace.2 .up "Up" " " (by decide)
     (by decide) (by decide)).1,
   (parse_direction_roundtrip_and_whitespace.2 .up "Up" " " (by decide)
     (by decide) (by decide)).2⟩

/-- Wire representation of a snake on the board, restricted to the fields the
turn fan-out inspects (the id used to look up the URL and the last move, and
the health used for the alive filter). -/
structure BattleSnake where
  id : String
  health : Int
deriving DecidableEq, Repr

/-- Wire representation of the board, restricted to the snake list. -/
structure Board where
  snakes : List BattleSnake
deriving DecidableEq, Repr

/-- Wire representation of the game state, restricted to the board. -/
structure Game where
  board : Board
deriving DecidableEq, Repr

/-- Snakes with positive health, as filtered by request_moves_parallel. -/
def aliveSnakes (game : Game) : List BattleSnake :=
  game.board.snakes.filter (fun s => s.health > 0)

/-- Translation of request_moves_parallel from snake_client.rs. The outcome,
elapsed and last_moves oracles stand for the per-snake request outcome, the
measured latency and the last-move map; join_all preserves the order and
count of the launched futures, so the result list is the filterMap below. A
snake whose id has no entry in snake_urls produces no future and hence no
result. -/
def request_moves_parallel (outcome : String → SendOutcome)
    (elapsed : String → Int) (game : Game)
    (snake_urls : List (String × String))
    (last_moves : String → Option Move) : List MoveResult :=
  (game.board.snakes.filter (fun s => s.health > 0)).filterMap (fun snake =>
    (snake_urls.find? (fun p => p.1 == snake.id)).map (fun _p =>
      request_move (outcome snake.id) snake.id (elapsed snake.id)
        (last_moves snake.id)))

theorem filterMap_eq_map_of_forall_some {α β : Type} (l : List α)
    (f : α → Option β) (g : α → β) (h : ∀ x ∈ l, f x = some (g x)) :
    l.filterMap f = l.map g := by
  induction l with
  | nil => rfl
  | cons a l ih =>
      rw [List.filterMap_cons, h a (List.mem_cons_self a l), List.map_cons,
        ih (fun x hx => h x (List.mem_cons_of_mem a hx))]

/-- C8 counterexample: as stated, the claim fails. A board with one alive
snake whose id has no entry in snake_urls yields an empty result list, not
one MoveResult per alive snake. -/
theorem request_moves_parallel_counterexample :
    (request_moves_parallel (fun _ => .timeout) (fun _ => 0)
        { board := { snakes := [{ id := "s1", health := 100 }] } } []
        (fun _ => none)).length = 0 ∧
    (aliveSnakes
        { board := { snakes := [{ id := "s1", health := 100 }] } }).length
      = 1 :=
  ⟨rfl, rfl⟩

/-- C8 amended: when every alive snake of the board has an entry in
snake_urls, request_moves_parallel returns exactly one MoveResult per alive
snake, in board order; in particular the result count equals the alive
count. -/
theorem request_moves_parallel_one_per_alive (outcome : String → SendOutcome)
    (elapsed : String → Int) (game : Game)
    (snake_urls : List (String × String)) (last_moves : String → Option Move)
    (h : ∀ s ∈ aliveSnakes game,
        (snake_urls.find? (fun p => p.1 == s.id)).isSome = true) :
    request_moves_parallel outcome elapsed game snake_urls last_moves =
      (aliveSnakes game).map (fun s =>
        request_move (outcome s.id) s.id (elapsed s.id) (last_moves s.id)) ∧
    (request_moves_parallel outcome elapsed game snake_urls last_moves).length
      = (aliveSnakes game).length := by
  have hmain : request_moves_parallel outcome elapsed game snake_urls
      last_moves =
      (aliveSnakes game).map (fun s =>
        request_move (outcome s.id) s.id (elapsed s.id) (last_moves s.id)) := by
    apply filterMap_eq_map_of_forall_some
    intro s hs
    obtain ⟨u, hu⟩ := Option.isSome_iff_exists.mp (h s hs)
    rw [hu]
    rfl
  exact ⟨hmain, by rw [hmain, List.length_map]⟩

/-- Witness for C8 at a concrete input: one alive snake with a URL entry
yields exactly one result. -/
theorem request_moves_parallel_one_per_alive_witness :
    (∀ s ∈ aliveSnakes { board := { snakes := [{ id := "s1", health := 55 }] } },
      (([("s1", "http://snake")] : List (String × String)).find?
        (fun p => p.1 == s.id)).isSome = true) ∧
    (request_moves_parallel (fun _ => .timeout) (fun _ => 7)
        { board := { snakes := [{ id := "s1", health := 55 }] } }
        [("s1", "http://snake")] (fun _ => none)).length
      = (aliveSnakes
          { board := { snakes := [{ id := "s1", health := 55 }] } }).length :=
  ⟨by decide,
   (request_moves_parallel_one_per_alive (fun _ => .timeout) (fun _ => 7)
     { board := { snakes := [{ id := "s1", health := 55 }] } }
     [("s1", "http://snake")] (fun _ => none) (by decide)).2⟩

/-- Leaderboard entry row from models/leaderboard.rs, parametric in the
numeric field type: the rating engine idealises the f64 columns as real
numbers, while the matchmaker claims only need ordered arithmetic and use
rationals. Timestamps are idealised as integers. -/
structure LeaderboardEntry (F : Type) where
  leaderboard_entry_id : Nat
  leaderboard_id : Nat
  battlesnake_id : Nat
  mu : F
  sigma : F
  display_score : F
  games_played : Int
  first_place_finishes : Int
  non_first_finishes : Int
  disabled_at : Option Int
  created_at : Int
  updated_at : Int
deriving DecidableEq, Inhabited

/-- Constant from models/leaderboard.rs. -/
def MATCH_SIZE : Nat := 4

/-- Constant from models/leaderboard.rs. -/
def GAMES_PER_DAY : Int := 100

/-- Modelled from the spec: MATCHMAKER_INTERVAL_SECS lives in the cron
module, which is not among the sources here; the spec fixes the cadence to
900 seconds. -/
def MATCHMAKER_INTERVAL_SECS : Int := 900

/-- Translation of the quota computation in run_matchmaker_for_leaderboard
(leaderboard_matchmaker.rs): runs per day by integer division. -/
def runs_per_day : Int := 24 * 60 * 60 / MATCHMAKER_INTERVAL_SECS

/-- Translation of the quota computation in run_matchmaker_for_leaderboard:
ceiling division of GAMES_PER_DAY by runs_per_day, with a floor of one. -/
def games_per_run : Int := max ((GAMES_PER_DAY + runs_per_day - 1) / runs_per_day) 1

/-- C5: the per-run game quota equals the ceiling of GAMES_PER_DAY times
MATCHMAKER_INTERVAL_SECS over 86400, with a minimum of one, and at the
configured constants one run creates two matches per leaderboard. -/
theorem games_per_run_quota :
    games_per_run =
      max ⌈(GAMES_PER_DAY * MATCHMAKER_INTERVAL_SECS : ℚ) / 86400⌉ 1 ∧
    games_per_run = 2 ∧ 1 ≤ games_per_run := by
  have hceil : ⌈(GAMES_PER_DAY * MATCHMAKER_INTERVAL_SECS : ℚ) / 86400⌉ = 2 := by
    rw [Int.ceil_eq_iff]
    constructor <;> norm_num [GAMES_PER_DAY, MATCHMAKER_INTERVAL_SECS]
  refine ⟨?_, by decide, by decide⟩
  rw [hceil]
  decide

/-- Translation of update_rating from models/leaderboard.rs: the SQL UPDATE
sets the new rating columns, adds one to games_played, and adds one to
exactly one of the two finish counters according to is_first_place. -/
def update_rating {F : Type} (e : LeaderboardEntry F) (mu sigma display_score : F)
    (is_first_place : Bool) : LeaderboardEntry F :=
  { e with
    mu := mu
    sigma := sigma
    display_score := display_score
    games_played := e.games_played + 1
    first_place_finishes :=
      e.first_place_finishes + (if is_first_place then 1 else 0)
    non_first_finishes :=
      e.non_first_finishes + (if is_first_place then 0 else 1) }

/-- C7: update_rating preserves the invariant that games_played equals
first_place_finishes plus non_first_finishes; it increments games_played by
one and exactly one of the two finish counters by one, chosen by
is_first_place. -/
theorem update_rating_preserves_invariant {F : Type} (e : LeaderboardEntry F)
    (mu sigma ds : F) (fp : Bool)
    (h : e.games_played = e.first_place_finishes + e.non_first_finishes) :
    (update_rating e mu sigma ds fp).games_played =
      (update_rating e mu sigma ds fp).first_place_finishes +
      (update_rating e mu sigma ds fp).non_first_finishes ∧
    (update_rating e mu sigma ds fp).games_played = e.games_played + 1 ∧
    (fp = true →
      (update_rating e mu sigma ds fp).first_place_finishes =
        e.first_place_finishes + 1 ∧
      (update_rating e mu sigma ds fp).non_first_finishes =
        e.non_first_finishes) ∧
    (fp = false →
      (update_rating e mu sigma ds fp).non_first_finishes =
        e.non_first_finishes + 1 ∧
      (update_rating e mu sigma ds fp).first_place_finishes =
        e.first_place_finishes) := by
  cases fp <;> simp [update_rating] <;> omega

/-- Witness for C7 at a concrete entry satisfying the invariant. -/
theorem update_rating_preserves_invariant_witness :
    ((⟨1, 1, 1, 25, 8, 1, 5, 2, 3, none, 0, 0⟩ :
        LeaderboardEntry ℚ).games_played = 2 + 3) ∧
    (update_rating (⟨1, 1, 1, 25, 8, 1, 5, 2, 3, none, 0, 0⟩ :
        LeaderboardEntry ℚ) 26 7 5 true).games_played =
      (update_rating (⟨1, 1, 1, 25, 8, 1, 5, 2, 3, none, 0, 0⟩ :
        LeaderboardEntry ℚ) 26 7 5 true).first_place_finishes +
      (update_rating (⟨1, 1, 1, 25, 8, 1, 5, 2, 3, none, 0, 0⟩ :
        LeaderboardEntry ℚ) 26 7 5 true).non_first_finishes :=
  ⟨by decide,
   (update_rating_preserves_invariant
     (⟨1, 1, 1, 25, 8, 1, 5, 2, 3, none, 0, 0⟩ : LeaderboardEntry ℚ)
     26 7 5 true (by decide)).1⟩

/-- Translation of the first step of select_match
(leaderboard_matchmaker.rs): sort the entries by display_score descending.
The Rust sort_by is stable, as is mergeSort. -/
def smSorted (entries : List (LeaderboardEntry ℚ)) : List (LeaderboardEntry ℚ) :=
  entries.mergeSort (fun a b => decide (b.display_score ≤ a.display_score))

/-- Translation of the seed-score lookup of select_match: the display score
of the randomly chosen seed entry. The rngSeedIdx argument stands for the
value drawn by gen_range over the index range of the sorted list. -/
def smSeedScore (rngSeedIdx : Nat) (entries : List (LeaderboardEntry ℚ)) : ℚ :=
  (((smSorted entries)[rngSeedIdx]?).map (fun e => e.display_score)).getD 0

/-- Translation of the candidate scoring of select_match: each index paired
with its jittered distance to the seed score. The jitter argument stands for
the sequence of gen_range draws in iteration order. -/
def smCandidates (rngSeedIdx : Nat) (jitter : Nat → ℚ)
    (entries : List (LeaderboardEntry ℚ)) : List (Nat × ℚ) :=
  (smSorted entries).enum.map (fun p =>
    (p.1, |p.2.display_score - smSeedScore rngSeedIdx entries| + jitter p.1))

/-- Translation of the candidate sort of select_match: candidates by
jittered distance ascending. -/
def smSortedCandidates (rngSeedIdx : Nat) (jitter : Nat → ℚ)
    (entries : List (LeaderboardEntry ℚ)) : List (Nat × ℚ) :=
  (smCandidates rngSeedIdx jitter entries).mergeSort
    (fun a b => decide (a.2 ≤ b.2))

/-- Translation of select_match from leaderboard_matchmaker.rs: too few
entries yields the empty list, otherwise take the first match_size
candidates and map their indices back into the sorted entry list. -/
def select_match (rngSeedIdx : Nat) (jitter : Nat → ℚ)
    (entries : List (LeaderboardEntry ℚ)) (match_size : Nat) :
    List (LeaderboardEntry ℚ) :=
  if entries.length < match_size then []
  else
    ((smSortedCandidates rngSeedIdx jitter entries).take match_size).map
      (fun p => (smSorted entries)[p.1]?.getD default)

theorem subperm_map {α β : Type} (f : α → β) {l1 l2 : List α}
    (h : l1.Subperm l2) : (l1.map f).Subperm (l2.map f) := by
  obtain ⟨w, hp, hs⟩ := h
  exact ⟨w.map f, hp.map f, hs.map f⟩

theorem map_getD_eq_pmap {α : Type} [Inhabited α] (l : List α) :
    ∀ (is : List Nat) (H : ∀ i ∈ is, i < l.length),
      is.map (fun i => l[i]?.getD default) =
        is.pmap (fun i h => l.get ⟨i, h⟩) H
  | [], _ => rfl
  | i :: is, H => by
      simp only [List.map_cons, List.pmap]
      congr 1
      · rw [List.getElem?_eq_getElem (H i (List.mem_cons_self i is))]
        rfl
      · exact map_getD_eq_pmap l is (fun j hj => H j (List.mem_cons_of_mem i hj))

/-- Mapping a duplicate-free list of in-range indices through list indexing
yields a subpermutation of the list. -/
theorem map_getD_nodup_subperm {α : Type} [Inhabited α] (l : List α)
    (is : List Nat) (hnd : is.Nodup) (H : ∀ i ∈ is, i < l.length) :
    (is.map (fun i => l[i]?.getD default)).Subperm l := by
  rw [map_getD_eq_pmap l is H]
  have hfin : (is.pmap (fun i h => (⟨i, h⟩ : Fin l.length)) H).Subperm
      (List.finRange l.length) := by
    apply List.Nodup.subperm
    · exact List.Nodup.pmap (fun a _ b _ hab => congrArg Fin.val hab) hnd
    · intro x _
      exact List.mem_finRange x
  have hmap := subperm_map l.get hfin
  rw [List.map_pmap, List.finRange_map_get] at hmap
  exact hmap

/-- C6: select_match returns the empty list when there are fewer entries
than the match size; otherwise it returns exactly match_size entries, all
drawn without repetition from the input list (a subpermutation), for every
seed index in range and every jitter sequence. -/
theorem select_match_size_and_distinct (rngSeedIdx : Nat) (jitter : Nat → ℚ)
    (entries : List (LeaderboardEntry ℚ)) (match_size : Nat) :
    (entries.length < match_size →
      select_match rngSeedIdx jitter entries match_size = []) ∧
    (match_size ≤ entries.length → rngSeedIdx < entries.length →
      (select_match rngSeedIdx jitter entries match_size).length = match_size ∧
      (select_match rngSeedIdx jitter entries match_size).Subperm entries) := by
  constructor
  · intro h
    simp [select_match, h]
  · intro hk _hseed
    have hnl : ¬ entries.length < match_size := not_lt.mpr hk
    have hsel : select_match rngSeedIdx jitter entries match_size =
        ((smSortedCandidates rngSeedIdx jitter entries).take match_size).map
          (fun p => (smSorted entries)[p.1]?.getD default) := by
      rw [select_match, if_neg hnl]
    have hsortlen : (smSorted entries).length = entries.length :=
      List.length_mergeSort entries
    have hfstperm : ((smSortedCandidates rngSeedIdx jitter entries).map
        Prod.fst).Perm (List.range (smSorted entries).length) := by
      have h1 : (smSortedCandidates rngSeedIdx jitter entries).Perm
          (smCandidates rngSeedIdx jitter entries) :=
        List.mergeSort_perm _ _
      have h2 := h1.map Prod.fst
      have h3 : (smCandidates rngSeedIdx jitter entries).map Prod.fst =
          List.range (smSorted entries).length := by
        rw [smCandidates, List.map_map]
        exact List.enum_map_fst (smSorted entries)
      rwa [h3] at h2
    have hlen : (smSortedCandidates rngSeedIdx jitter entries).length =
        entries.length := by
      have := hfstperm.length_eq
      rwa [List.length_map, List.length_range, hsortlen] at this
    have hcompose : select_match rngSeedIdx jitter entries match_size =
        (((smSortedCandidates rngSeedIdx jitter entries).map Prod.fst).take
          match_size).map (fun i => (smSorted entries)[i]?.getD default) := by
      rw [hsel, ← List.map_take, List.map_map]
      rfl
    have hndfst : ((smSortedCandidates rngSeedIdx jitter entries).map
        Prod.fst).Nodup :=
      hfstperm.nodup_iff.mpr (List.nodup_range _)
    have hndtake : (((smSortedCandidates rngSeedIdx jitter entries).map
        Prod.fst).take match_size).Nodup :=
      (List.take_sublist _ _).nodup hndfst
    have hboundtake : ∀ i ∈ ((smSortedCandidates rngSeedIdx jitter
        entries).map Prod.fst).take match_size, i < (smSorted entries).length := by
      intro i hi
      have hi2 : i ∈ (smSortedCandidates rngSeedIdx jitter entries).map
          Prod.fst := (List.take_sublist _ _).subset hi
      have := hfstperm.subset hi2
      exact List.mem_range.mp this
    constructor
    · rw [hcompose, List.length_map, List.length_take, List.length_map, hlen]
      omega
    · have hsub : (select_match rngSeedIdx jitter entries
          match_size).Subperm (smSorted entries) := by
        rw [hcompose]
        exact map_getD_nodup_subperm (smSorted entries) _ hndtake hboundtake
      exact hsub.trans (List.mergeSort_perm entries _).subperm

/-- Witness for C6 at a concrete input: five entries, match size four, seed
index two. -/
theorem select_match_size_and_distinct_witness :
    (4 ≤ ([⟨1, 1, 1, 25, 8, 1, 0, 0, 0, none, 0, 0⟩,
           ⟨2, 1, 2, 25, 8, 2, 0, 0, 0, none, 0, 0⟩,
           ⟨3, 1, 3, 25, 8, 3, 0, 0, 0, none, 0, 0⟩,
           ⟨4, 1, 4, 25, 8, 4, 0, 0, 0, none, 0, 0⟩,
           ⟨5, 1, 5, 25, 8, 5, 0, 0, 0, none, 0, 0⟩] :
             List (LeaderboardEntry ℚ)).length ∧
     2 < ([⟨1, 1, 1, 25, 8, 1, 0, 0, 0, none, 0, 0⟩,
           ⟨2, 1, 2, 25, 8, 2, 0, 0, 0, none, 0, 0⟩,
           ⟨3, 1, 3, 25, 8, 3, 0, 0, 0, none, 0, 0⟩,
           ⟨4, 1, 4, 25, 8, 4, 0, 0, 0, none, 0, 0⟩,
           ⟨5, 1, 5, 25, 8, 5, 0, 0, 0, none, 0, 0⟩] :
             List (LeaderboardEntry ℚ)).length) ∧
    (select_match 2 (fun _ => 1)
        [⟨1, 1, 1, 25, 8, 1, 0, 0, 0, none, 0, 0⟩,
         ⟨2, 1, 2, 25, 8, 2, 0, 0, 0, none, 0, 0⟩,
         ⟨3, 1, 3, 25, 8, 3, 0, 0, 0, none, 0, 0⟩,
         ⟨4, 1, 4, 25, 8, 4, 0, 0, 0, none, 0, 0⟩,
         ⟨5, 1, 5, 25, 8, 5, 0, 0, 0, none, 0, 0⟩] 4).length = 4 :=
  ⟨⟨by decide, by decide⟩,
   ((select_match_size_and_distinct 2 (fun _ => 1)
      [⟨1, 1, 1, 25, 8, 1, 0, 0, 0, none, 0, 0⟩,
       ⟨2, 1, 2, 25, 8, 2, 0, 0, 0, none, 0, 0⟩,
       ⟨3, 1, 3, 25, 8, 3, 0, 0, 0, none, 0, 0⟩,
       ⟨4, 1, 4, 25, 8, 4, 0, 0, 0, none, 0, 0⟩,
       ⟨5, 1, 5, 25, 8, 5, 0, 0, 0, none, 0, 0⟩] 4).2
     (by decide) (by decide)).1⟩

/-- Rating of a single player, mirroring WengLinRating from the external
skillratings crate. -/
structure WengLinRating where
  rating : ℝ
  uncertainty : ℝ

/-- Modelled from the spec: default beta of WengLinConfig::new for the
standard Weng-Lin model. -/
noncomputable def wengLinBeta : ℝ := 25 / 6

/-- Modelled from the spec: the small positive uncertainty floor of the
standard Weng-Lin update (the uncertainty never collapses entirely). -/
noncomputable def wengLinKappa : ℝ := 1 / 1000000

/-- Pairwise score from the two ranks: a strictly smaller rank is a win, an
equal rank a draw. -/
noncomputable def wengLinScore (ri rq : Int) : ℝ :=
  if ri < rq then 1 else if ri = rq then 1 / 2 else 0

/-- Combined standard deviation of a pair of teams. -/
noncomputable def wengLinPairC (si sq : ℝ) : ℝ :=
  Real.sqrt (si ^ 2 + sq ^ 2 + 2 * wengLinBeta ^ 2)

/-- Bradley-Terry expected score of the first team against the second. -/
noncomputable def wengLinP (mi mq c : ℝ) : ℝ :=
  Real.exp (mi / c) / (Real.exp (mi / c) + Real.exp (mq / c))

/-- Mean adjustment accumulated over all opponents. -/
noncomputable def wengLinOmega (ti : WengLinRating × Int)
    (opps : List (WengLinRating × Int)) : ℝ :=
  (opps.map (fun tq =>
    (ti.1.uncertainty ^ 2 / wengLinPairC ti.1.uncertainty tq.1.uncertainty) *
      (wengLinScore ti.2 tq.2 -
        wengLinP ti.1.rating tq.1.rating
          (wengLinPairC ti.1.uncertainty tq.1.uncertainty)))).sum

/-- Uncertainty shrink factor accumulated over all opponents. -/
noncomputable def wengLinDelta (ti : WengLinRating × Int)
    (opps : List (WengLinRating × Int)) : ℝ :=
  (opps.map (fun tq =>
    (ti.1.uncertainty / wengLinPairC ti.1.uncertainty tq.1.uncertainty) *
      (ti.1.uncertainty ^ 2 /
        wengLinPairC ti.1.uncertainty tq.1.uncertainty ^ 2) *
      (wengLinP ti.1.rating tq.1.rating
          (wengLinPairC ti.1.uncertainty tq.1.uncertainty) *
        (1 - wengLinP ti.1.rating tq.1.rating
          (wengLinPairC ti.1.uncertainty tq.1.uncertainty))))).sum

/-- Updated rating of one team against its list of opponents. -/
noncomputable def wengLinNewRating (ti : WengLinRating × Int)
    (opps : List (WengLinRating × Int)) : WengLinRating :=
  { rating := ti.1.rating + wengLinOmega ti opps
    uncertainty :=
      Real.sqrt (ti.1.uncertainty ^ 2 *
        max (1 - wengLinDelta ti opps) wengLinKappa) }

/-- Modelled from the spec: weng_lin_multi_team of the skillratings crate,
specialised to the one-player teams that calculate_rating_updates always
builds. Every team is updated against all other teams (by index, so equal
ratings at different positions are distinct opponents). -/
noncomputable def weng_lin_multi_team (teams : List (WengLinRating × Int)) :
    List WengLinRating :=
  teams.enum.map (fun p =>
    wengLinNewRating p.2
      ((teams.enum.filter (fun q => decide (q.1 ≠ p.1))).map Prod.snd))

/-- Computed rating update for a single snake in a game
(leaderboard_ratings.rs RatingUpdate). -/
structure RatingUpdate where
  leaderboard_entry_id : Nat
  battlesnake_id : Nat
  placement : Int
  old_mu : ℝ
  old_sigma : ℝ
  new_mu : ℝ
  new_sigma : ℝ
  new_display_score : ℝ
  display_score_change : ℝ
  is_first_place : Bool

/-- Translation of calculate_rating_updates from leaderboard_ratings.rs:
build one-player Weng-Lin teams from the entries, run the multi-team update,
and package the new ratings with the derived display scores. -/
noncomputable def calculate_rating_updates
    (entries_with_placements : List (LeaderboardEntry ℝ × Int)) :
    List RatingUpdate :=
  let teams : List (WengLinRating × Int) := entries_with_placements.map
    (fun p => ({ rating := p.1.mu, uncertainty := p.1.sigma }, p.2))
  let new_ratings := weng_lin_multi_team teams
  entries_with_placements.enum.map (fun p =>
    let entry := p.2.1
    let placement := p.2.2
    let new_rating := (new_ratings[p.1]?).getD
      { rating := entry.mu, uncertainty := entry.sigma }
    let new_mu := new_rating.rating
    let new_sigma := new_rating.uncertainty
    let new_display_score := new_mu - 3 * new_sigma
    let old_display_score := entry.mu - 3 * entry.sigma
    { leaderboard_entry_id := entry.leaderboard_entry_id
      battlesnake_id := entry.battlesnake_id
      placement := placement
      old_mu := entry.mu
      old_sigma := entry.sigma
      new_mu := new_mu
      new_sigma := new_sigma
      new_display_score := new_display_score
      display_score_change := new_display_score - old_display_score
      is_first_place := placement == 1 })

theorem wengLinPairC_pos (si sq : ℝ) : 0 < wengLinPairC si sq := by
  apply Real.sqrt_pos.mpr
  have hb : (0 : ℝ) < wengLinBeta := by norm_num [wengLinBeta]
  nlinarith [sq_nonneg si, sq_nonneg sq]

theorem wengLinP_pos (mi mq c : ℝ) : 0 < wengLinP mi mq c :=
  div_pos (Real.exp_pos _) (add_pos (Real.exp_pos _) (Real.exp_pos _))

theorem wengLinP_lt_one (mi mq c : ℝ) : wengLinP mi mq c < 1 := by
  rw [wengLinP, div_lt_one (add_pos (Real.exp_pos _) (Real.exp_pos _))]
  exact lt_add_of_pos_right _ (Real.exp_pos _)

theorem wengLinDelta_pos (ti : WengLinRating × Int)
    (opps : List (WengLinRating × Int)) (hσ : 0 < ti.1.uncertainty)
    (hopps : opps ≠ []) : 0 < wengLinDelta ti opps := by
  apply List.sum_pos
  · intro x hx
    obtain ⟨tq, _, hxeq⟩ := List.mem_map.mp hx
    subst hxeq
    have hc := wengLinPairC_pos ti.1.uncertainty tq.1.uncertainty
    have hp := wengLinP_pos ti.1.rating tq.1.rating
      (wengLinPairC ti.1.uncertainty tq.1.uncertainty)
    have hp1 := wengLinP_lt_one ti.1.rating tq.1.rating
      (wengLinPairC ti.1.uncertainty tq.1.uncertainty)
    have h1 : 0 < ti.1.uncertainty /
        wengLinPairC ti.1.uncertainty tq.1.uncertainty := div_pos hσ hc
    have h2 : 0 < ti.1.uncertainty ^ 2 /
        wengLinPairC ti.1.uncertainty tq.1.uncertainty ^ 2 :=
      div_pos (pow_pos hσ 2) (pow_pos hc 2)
    have h3 : 0 < wengLinP ti.1.rating tq.1.rating
        (wengLinPairC ti.1.uncertainty tq.1.uncertainty) *
        (1 - wengLinP ti.1.rating tq.1.rating
          (wengLinPairC ti.1.uncertainty tq.1.uncertainty)) :=
      mul_pos hp (sub_pos.mpr hp1)
    exact mul_pos (mul_pos h1 h2) h3
  · intro h0
    exact hopps (List.map_eq_nil_iff.mp h0)

/-- Core shrink fact: against at least one opponent, a team with positive
uncertainty comes out with strictly smaller uncertainty. -/
theorem wengLinNewRating_uncertainty_lt (ti : WengLinRating × Int)
    (opps : List (WengLinRating × Int)) (hσ : 0 < ti.1.uncertainty)
    (hopps : opps ≠ []) :
    (wengLinNewRating ti opps).uncertainty < ti.1.uncertainty := by
  have hδ := wengLinDelta_pos ti opps hσ hopps
  have hκ : (0 : ℝ) < wengLinKappa := by norm_num [wengLinKappa]
  have hκ1 : wengLinKappa < 1 := by norm_num [wengLinKappa]
  have hmaxpos : 0 < max (1 - wengLinDelta ti opps) wengLinKappa :=
    lt_max_of_lt_right hκ
  have hmaxlt : max (1 - wengLinDelta ti opps) wengLinKappa < 1 :=
    max_lt (by linarith) hκ1
  have hlt : ti.1.uncertainty ^ 2 *
      max (1 - wengLinDelta ti opps) wengLinKappa < ti.1.uncertainty ^ 2 :=
    mul_lt_of_lt_one_right (pow_pos hσ 2) hmaxlt
  have hsqrt : Real.sqrt (ti.1.uncertainty ^ 2 *
      max (1 - wengLinDelta ti opps) wengLinKappa) <
      Real.sqrt (ti.1.uncertainty ^ 2) :=
    Real.sqrt_lt_sqrt
      (mul_nonneg (sq_nonneg _) (le_of_lt hmaxpos)) hlt
  rw [Real.sqrt_sq (le_of_lt hσ)] at hsqrt
  exact hsqrt

theorem enum_filter_ne_nonempty {α : Type} (l : List α) (i : Nat)
    (h2 : 2 ≤ l.length) :
    (l.enum.filter (fun q => decide (q.1 ≠ i))).map Prod.snd ≠ [] := by
  have hj : ∃ j, j < l.length ∧ j ≠ i := by
    rcases Nat.eq_zero_or_pos i with hi | hi
    · exact ⟨1, by omega, by omega⟩
    · exact ⟨0, by omega, by omega⟩
  obtain ⟨j, hjl, hji⟩ := hj
  have hmem : ((j, l[j]) : Nat × α) ∈ l.enum := by
    rw [List.mem_enum_iff_getElem?]
    exact List.getElem?_eq_getElem hjl
  have hmemf : ((j, l[j]) : Nat × α) ∈
      l.enum.filter (fun q => decide (q.1 ≠ i)) := by
    rw [List.mem_filter]
    exact ⟨hmem, by simpa using hji⟩
  intro h0
  rw [List.map_eq_nil_iff] at h0
  rw [h0] at hmemf
  exact List.not_mem_nil _ hmemf

/-- C2 amended: for an input list with at least two entries, each with
positive sigma, every produced update has new_sigma strictly below the old
sigma of its entry. -/
theorem calculate_rating_updates_sigma_strict
    (ewp : List (LeaderboardEntry ℝ × Int)) (hlen : 2 ≤ ewp.length)
    (hsig : ∀ p ∈ ewp, 0 < p.1.sigma) :
    ∀ u ∈ calculate_rating_updates ewp, u.new_sigma < u.old_sigma := by
  intro u hu
  simp only [calculate_rating_updates, List.mem_map] at hu
  obtain ⟨p, hpmem, hpu⟩ := hu
  obtain ⟨i, pair⟩ := p
  rw [List.mem_enum_iff_getElem?] at hpmem
  have hpairmem : pair ∈ ewp := List.getElem?_mem hpmem
  have hσ : 0 < pair.1.sigma := hsig pair hpairmem
  subst hpu
  have hteam : (ewp.map (fun p =>
      (({ rating := p.1.mu, uncertainty := p.1.sigma } : WengLinRating),
        p.2)))[i]? = some
      (({ rating := pair.1.mu, uncertainty := pair.1.sigma } :
        WengLinRating), pair.2) := by
    rw [List.getElem?_map, hpmem]
    rfl
  have henum : (ewp.map (fun p =>
      (({ rating := p.1.mu, uncertainty := p.1.sigma } : WengLinRating),
        p.2))).enum[i]? = some (i,
      (({ rating := pair.1.mu, uncertainty := pair.1.sigma } :
        WengLinRating), pair.2)) := by
    rw [List.getElem?_enum, hteam]
    rfl
  have hwl : (weng_lin_multi_team (ewp.map (fun p =>
      (({ rating := p.1.mu, uncertainty := p.1.sigma } : WengLinRating),
        p.2))))[i]? = some (wengLinNewRating
      ((({ rating := pair.1.mu, uncertainty := pair.1.sigma } :
          WengLinRating), pair.2))
      (((ewp.map (fun p =>
          (({ rating := p.1.mu, uncertainty := p.1.sigma } : WengLinRating),
            p.2))).enum.filter (fun q => decide (q.1 ≠ i))).map
        Prod.snd)) := by
    rw [weng_lin_multi_team, List.getElem?_map, henum]
    rfl
  have hopps : (((ewp.map (fun p =>
      (({ rating := p.1.mu, uncertainty := p.1.sigma } : WengLinRating),
        p.2))).enum.filter (fun q => decide (q.1 ≠ i))).map
        Prod.snd) ≠ [] := by
    apply enum_filter_ne_nonempty
    rw [List.length_map]
    exact hlen
  have hcore := wengLinNewRating_uncertainty_lt
    ((({ rating := pair.1.mu, uncertainty := pair.1.sigma } :
        WengLinRating), pair.2))
    (((ewp.map (fun p =>
        (({ rating := p.1.mu, uncertainty := p.1.sigma } : WengLinRating),
          p.2))).enum.filter (fun q => decide (q.1 ≠ i))).map
      Prod.snd) hσ hopps
  simp only [hwl, Option.getD_some]
  exact hcore

/-- Concrete leaderboard entry used by the C2 counterexample. -/
noncomputable def c2entry : LeaderboardEntry ℝ :=
  { leaderboard_entry_id := 1, leaderboard_id := 1, battlesnake_id := 1,
    mu := 25, sigma := 8, display_score := 1, games_played := 0,
    first_place_finishes := 0, non_first_finishes := 0, disabled_at := none,
    created_at := 0, updated_at := 0 }

/-- C2 counterexample: on a single-entry input list (no opponents) the
Weng-Lin update leaves sigma unchanged, so the claim as stated, quantified
over every input list, fails. -/
theorem calculate_rating_updates_sigma_counterexample :
    ¬ (∀ u ∈ calculate_rating_updates [(c2entry, 1)],
        u.new_sigma < u.old_sigma) := by
  intro h
  have hne : calculate_rating_updates [(c2entry, 1)] ≠ [] := by
    simp [calculate_rating_updates]
  have hlt := h _ (List.head_mem hne)
  have hos : ((calculate_rating_updates [(c2entry, 1)]).head hne).old_sigma
      = 8 := rfl
  have hns : ((calculate_rating_updates [(c2entry, 1)]).head hne).new_sigma
      = Real.sqrt ((8 : ℝ) ^ 2 *
        max (1 - wengLinDelta
          (({ rating := 25, uncertainty := 8 } : WengLinRating), (1 : Int))
          []) wengLinKappa) := rfl
  have hdelta : wengLinDelta
      (({ rating := 25, uncertainty := 8 } : WengLinRating), (1 : Int)) []
      = 0 := by
    simp [wengLinDelta]
  rw [hdelta] at hns
  have h8 : ((calculate_rating_updates [(c2entry, 1)]).head hne).new_sigma
      = 8 := by
    rw [hns]
    rw [show (1 : ℝ) - 0 = 1 by ring]
    rw [max_eq_left (by norm_num [wengLinKappa])]
    rw [mul_one, Real.sqrt_sq (by norm_num)]
  rw [h8, hos] at hlt
  exact lt_irrefl 8 hlt

/-- Witness for the amended C2 at a concrete two-entry input. -/
theorem calculate_rating_updates_sigma_strict_witness :
    2 ≤ ([(c2entry, 1),
          ({ leaderboard_entry_id := 2, leaderboard_id := 1,
             battlesnake_id := 2, mu := 20, sigma := 7, display_score := 0,
             games_played := 0, first_place_finishes := 0,
             non_first_finishes := 0, disabled_at := none, created_at := 0,
             updated_at := 0 }, 2)] :
        List (LeaderboardEntry ℝ × Int)).length ∧
    (∀ u ∈ calculate_rating_updates
        [(c2entry, 1),
         ({ leaderboard_entry_id := 2, leaderboard_id := 1,
            battlesnake_id := 2, mu := 20, sigma := 7, display_score := 0,
            games_played := 0, first_place_finishes := 0,
            non_first_finishes := 0, disabled_at := none, created_at := 0,
            updated_at := 0 }, 2)],
      u.new_sigma < u.old_sigma) :=
  ⟨by norm_num,
   calculate_rating_updates_sigma_strict _ (by norm_num)
     (by
      intro p hp
      fin_cases hp <;> norm_num [c2entry])⟩

/-- Modelled from the spec: the per-participant join row of a match
(game_battlesnakes), carrying the optional placement and the preferred
participant-entry id with the legacy snake-id fallback. The defining module
is not among the sources here. -/
structure GameSnakeRow where
  game_id : Nat
  battlesnake_id : Nat
  placement : Option Int
  leaderboard_entry_id : Option Nat
deriving DecidableEq, Repr

/-- Leaderboard game link row from models/leaderboard.rs. -/
structure LeaderboardGame where
  leaderboard_game_id : Nat
  leaderboard_id : Nat
  game_id : Nat
  created_at : Int
deriving DecidableEq, Repr

/-- Leaderboard game result audit row from models/leaderboard.rs, without
the generated primary key and timestamp. -/
structure LeaderboardGameResult where
  leaderboard_game_id : Nat
  leaderboard_entry_id : Nat
  placement : Int
  mu_before : ℝ
  mu_after : ℝ
  sigma_before : ℝ
  sigma_after : ℝ
  display_score_change : ℝ

/-- State of the tables touched by the rating engine. -/
structure Db where
  lbGames : List LeaderboardGame
  gameSnakes : List GameSnakeRow
  entries : List (LeaderboardEntry ℝ)
  results : List LeaderboardGameResult

/-- Count of match-result rows for a leaderboard game, as used by both
idempotency checks of update_ratings. -/
def countResults (db : Db) (id : Nat) : Nat :=
  (db.results.filter (fun r => r.leaderboard_game_id == id)).length

/-- Fetch of the leaderboard game row by id (fetch_one: absence is an
error). -/
def lookupLbGame (db : Db) (id : Nat) : Option LeaderboardGame :=
  db.lbGames.find? (fun g => g.leaderboard_game_id == id)

/-- Modelled from the spec: get_battlesnakes_by_game_id of the
game_battlesnake model (not among the sources here) returns the join rows of
the given game with their placements. -/
def get_battlesnakes_by_game_id (db : Db) (gid : Nat) : List GameSnakeRow :=
  db.gameSnakes.filter (fun gs => gs.game_id == gid)

/-- Translation of get_entry_for_update_by_id from models/leaderboard.rs:
lookup by primary key. -/
def get_entry_for_update_by_id (entries : List (LeaderboardEntry ℝ))
    (eid : Nat) : Option (LeaderboardEntry ℝ) :=
  entries.find? (fun e => e.leaderboard_entry_id == eid)

/-- Translation of get_entry_for_update from models/leaderboard.rs: legacy
lookup by leaderboard id and snake id. -/
def get_entry_for_update (entries : List (LeaderboardEntry ℝ))
    (lbid bsid : Nat) : Option (LeaderboardEntry ℝ) :=
  entries.find? (fun e =>
    e.leaderboard_id == lbid && e.battlesnake_id == bsid)

/-- The entry lookup of the participant loop in update_ratings: prefer the
stored participant-entry id, fall back to the legacy pair. -/
def lookupEntryForSnake (db : Db) (lbg : LeaderboardGame)
    (gs : GameSnakeRow) : Option (LeaderboardEntry ℝ) :=
  match gs.leaderboard_entry_id with
  | some eid => get_entry_for_update_by_id db.entries eid
  | none => get_entry_for_update db.entries lbg.leaderboard_id gs.battlesnake_id

/-- The placement used by update_ratings for one participant:
gs.placement.unwrap_or(game_snakes.len() as i32). -/
def placementFor (gs : GameSnakeRow) (total : Nat) : Int :=
  gs.placement.getD (total : Int)

/-- The participant loop of update_ratings: pair each join row that has a
leaderboard entry with its placement; rows without an entry are skipped. -/
def entriesWithPlacements (db : Db) (lbg : LeaderboardGame) :
    List (LeaderboardEntry ℝ × Int) :=
  (get_battlesnakes_by_game_id db lbg.game_id).filterMap (fun gs =>
    (lookupEntryForSnake db lbg gs).map (fun e =>
      (e, placementFor gs (get_battlesnakes_by_game_id db lbg.game_id).length)))

/-- Participant entry ids of a leaderboard game, in loop order. -/
def participantIds (db : Db) (id : Nat) : List Nat :=
  match lookupLbGame db id with
  | none => []
  | some lbg =>
      (entriesWithPlacements db lbg).map (fun p => p.1.leaderboard_entry_id)

/-- Audit row built from one rating update. -/
def mkGameResult (id : Nat) (u : RatingUpdate) : LeaderboardGameResult :=
  { leaderboard_game_id := id
    leaderboard_entry_id := u.leaderboard_entry_id
    placement := u.placement
    mu_before := u.old_mu
    mu_after := u.new_mu
    sigma_before := u.old_sigma
    sigma_after := u.new_sigma
    display_score_change := u.display_score_change }

/-- Translation of create_game_result from models/leaderboard.rs: insert
with ON CONFLICT (leaderboard_game_id, leaderboard_entry_id) DO NOTHING. -/
def create_game_result (results : List LeaderboardGameResult)
    (row : LeaderboardGameResult) : List LeaderboardGameResult :=
  if results.any (fun r =>
      r.leaderboard_game_id == row.leaderboard_game_id &&
      r.leaderboard_entry_id == row.leaderboard_entry_id)
  then results
  else results ++ [row]

/-- One iteration of the update loop in update_ratings: record the audit row
and update the rating of the matching entry row. -/
def applyOne (id : Nat) (db : Db) (u : RatingUpdate) : Db :=
  let db1 := { db with
    results := create_game_result db.results (mkGameResult id u) }
  { db1 with entries := db1.entries.map (fun e =>
      if e.leaderboard_entry_id == u.leaderboard_entry_id
      then update_rating e u.new_mu u.new_sigma u.new_display_score
        u.is_first_place
      else e) }

/-- The full update loop of update_ratings. -/
def applyUpdates (db : Db) (id : Nat) (updates : List RatingUpdate) : Db :=
  updates.foldl (fun d u => applyOne id d u) db

/-- Translation of update_ratings from leaderboard_ratings.rs as a state
transition: some is an Ok return (with the possibly updated state), none is
an error return (the fetch of the leaderboard game failed); every early Ok
return leaves the state unchanged, and the transaction paths that return
before commit roll back to the unchanged state. -/
noncomputable def update_ratings (db : Db) (id : Nat) : Option Db :=
  if 0 < countResults db id then some db
  else
    match lookupLbGame db id with
    | none => none
    | some lbg =>
        if get_battlesnakes_by_game_id db lbg.game_id = [] then some db
        else if 0 < countResults db id then some db
        else if (entriesWithPlacements db lbg).length < 2 then some db
        else some (applyUpdates db id
          (calculate_rating_updates (entriesWithPlacements db lbg)))

/-- One at-least-once delivery of the update-ratings job: an error leaves
the state unchanged (the transaction rolled back) and the job is retried. -/
noncomputable def stepRatings (id : Nat) (db : Db) : Db :=
  (update_ratings db id).getD db

/-- Lookup of a participant entry row by id. -/
def lookupEntry (db : Db) (eid : Nat) : Option (LeaderboardEntry ℝ) :=
  db.entries.find? (fun e => e.leaderboard_entry_id == eid)

/-- Cumulative effect of the update loop on a single entry row. -/
def applyAll (U : List RatingUpdate) (e : LeaderboardEntry ℝ) :
    LeaderboardEntry ℝ :=
  U.foldl (fun e u =>
    if e.leaderboard_entry_id == u.leaderboard_entry_id
    then update_rating e u.new_mu u.new_sigma u.new_display_score
      u.is_first_place
    else e) e

theorem applyUpdates_entries (id : Nat) : ∀ (U : List RatingUpdate) (db : Db),
    (applyUpdates db id U).entries = db.entries.map (applyAll U)
  | [], db => (List.map_id db.entries).symm
  | u :: U, db => by
      have ih := applyUpdates_entries id U (applyOne id db u)
      show (applyUpdates (applyOne id db u) id U).entries = _
      rw [ih]
      show ((applyOne id db u).entries).map (applyAll U) =
        db.entries.map (applyAll (u :: U))
      have h1 : (applyOne id db u).entries = db.entries.map (fun e =>
          if e.leaderboard_entry_id == u.leaderboard_entry_id
          then update_rating e u.new_mu u.new_sigma u.new_display_score
            u.is_first_place
          else e) := rfl
      rw [h1, List.map_map]
      rfl

theorem update_rating_id {F : Type} (e : LeaderboardEntry F)
    (mu sigma ds : F) (fp : Bool) :
    (update_rating e mu sigma ds fp).leaderboard_entry_id =
      e.leaderboard_entry_id := rfl

theorem applyAll_id : ∀ (U : List RatingUpdate) (e : LeaderboardEntry ℝ),
    (applyAll U e).leaderboard_entry_id = e.leaderboard_entry_id
  | [], _ => rfl
  | u :: U, e => by
      show (applyAll U (if e.leaderboard_entry_id == u.leaderboard_entry_id
        then _ else e)).leaderboard_entry_id = _
      rw [applyAll_id U]
      by_cases hc : e.leaderboard_entry_id == u.leaderboard_entry_id
      · rw [if_pos hc]
        rfl
      · rw [if_neg hc]

theorem applyAll_of_not_mem : ∀ (U : List RatingUpdate)
    (e : LeaderboardEntry ℝ),
    e.leaderboard_entry_id ∉ U.map (fun u => u.leaderboard_entry_id) →
    applyAll U e = e
  | [], _, _ => rfl
  | u :: U, e, h => by
      have hne : e.leaderboard_entry_id ≠ u.leaderboard_entry_id := by
        intro he
        exact h (by rw [List.map_cons, he]; exact List.mem_cons_self _ _)
      have hnm : e.leaderboard_entry_id ∉
          U.map (fun u => u.leaderboard_entry_id) := by
        intro hm
        exact h (by rw [List.map_cons]; exact List.mem_cons_of_mem _ hm)
      show applyAll U (if e.leaderboard_entry_id == u.leaderboard_entry_id
        then _ else e) = e
      rw [if_neg (by simpa using hne)]
      exact applyAll_of_not_mem U e hnm

theorem applyAll_games_played_succ : ∀ (U : List RatingUpdate)
    (e : LeaderboardEntry ℝ),
    (U.map (fun u => u.leaderboard_entry_id)).Nodup →
    e.leaderboard_entry_id ∈ U.map (fun u => u.leaderboard_entry_id) →
    (applyAll U e).games_played = e.games_played + 1
  | [], _, _, hm => absurd hm (List.not_mem_nil _)
  | u :: U, e, hnd, hm => by
      rw [List.map_cons, List.nodup_cons] at hnd
      by_cases hc : e.leaderboard_entry_id = u.leaderboard_entry_id
      · show (applyAll U (if e.leaderboard_entry_id == u.leaderboard_entry_id
          then _ else e)).games_played = _
        rw [if_pos (by simpa using hc)]
        have hnm : (update_rating e u.new_mu u.new_sigma u.new_display_score
            u.is_first_place).leaderboard_entry_id ∉
            U.map (fun u => u.leaderboard_entry_id) := by
          rw [update_rating_id, hc]
          exact hnd.1
        rw [applyAll_of_not_mem U _ hnm]
        rfl
      · have hm2 : e.leaderboard_entry_id ∈
            U.map (fun u => u.leaderboard_entry_id) := by
          rw [List.map_cons] at hm
          rcases List.mem_cons.mp hm with h | h
          · exact absurd h hc
          · exact h
        show (applyAll U (if e.leaderboard_entry_id == u.leaderboard_entry_id
          then _ else e)).games_played = _
        rw [if_neg (by simpa using hc)]
        exact applyAll_games_played_succ U e hnd.2 hm2

theorem countResults_applyOne_pos (id : Nat) (db : Db) (u : RatingUpdate) :
    0 < countResults (applyOne id db u) id := by
  have hres : (applyOne id db u).results =
      create_game_result db.results (mkGameResult id u) := rfl
  rw [countResults, hres, create_game_result]
  by_cases hany : db.results.any (fun r =>
      r.leaderboard_game_id == (mkGameResult id u).leaderboard_game_id &&
      r.leaderboard_entry_id == (mkGameResult id u).leaderboard_entry_id)
  · rw [if_pos hany]
    obtain ⟨r, hrmem, hr⟩ := List.any_eq_true.mp hany
    have hrid : r.leaderboard_game_id = id := by
      have := (Bool.and_eq_true _ _).mp hr
      simpa [mkGameResult] using this.1
    apply List.length_pos.mpr
    apply List.ne_nil_of_mem (a := r)
    rw [List.mem_filter]
    exact ⟨hrmem, by simpa using hrid⟩
  · rw [if_neg hany, List.filter_append]
    have hrow : (([mkGameResult id u] :
        List LeaderboardGameResult).filter (fun r =>
          r.leaderboard_game_id == id)) = [mkGameResult id u] := by
      simp [mkGameResult]
    rw [hrow, List.length_append]
    simp

theorem countResults_applyUpdates_pos (id : Nat) :
    ∀ (U : List RatingUpdate) (db : Db), U ≠ [] →
    0 < countResults (applyUpdates db id U) id
  | [], _, h => absurd rfl h
  | [u], db, _ => countResults_applyOne_pos id db u
  | u :: u2 :: U, db, _ => by
      show 0 < countResults (applyUpdates (applyOne id db u) id (u2 :: U)) id
      exact countResults_applyUpdates_pos id (u2 :: U) (applyOne id db u)
        (by simp)

theorem update_ratings_of_pos (db : Db) (id : Nat)
    (h : 0 < countResults db id) : update_ratings db id = some db := by
  rw [update_ratings, if_pos h]

theorem calculate_rating_updates_length
    (l : List (LeaderboardEntry ℝ × Int)) :
    (calculate_rating_updates l).length = l.length := by
  simp [calculate_rating_updates, List.enum_length]

theorem calculate_rating_updates_ids
    (l : List (LeaderboardEntry ℝ × Int)) :
    (calculate_rating_updates l).map (fun u => u.leaderboard_entry_id) =
      l.map (fun p => p.1.leaderboard_entry_id) := by
  simp only [calculate_rating_updates, List.map_map]
  show l.enum.map (fun q => q.2.1.leaderboard_entry_id) =
    l.map (fun p => p.1.leaderboard_entry_id)
  conv_rhs => rw [← List.enum_map_snd l]
  rw [List.map_map]
  rfl

/-- Case analysis of one update_ratings invocation: every Ok return either
leaves the state unchanged (because results already exist or fewer than two
participants have entries), or is the apply path. -/
theorem update_ratings_cases (db : Db) (id : Nat) (db1 : Db)
    (h : update_ratings db id = some db1) :
    (db1 = db ∧ (0 < countResults db id ∨ ∃ lbg,
      lookupLbGame db id = some lbg ∧
      (entriesWithPlacements db lbg).length < 2)) ∨
    (countResults db id = 0 ∧ ∃ lbg, lookupLbGame db id = some lbg ∧
      2 ≤ (entriesWithPlacements db lbg).length ∧
      db1 = applyUpdates db id
        (calculate_rating_updates (entriesWithPlacements db lbg))) := by
  rw [update_ratings] at h
  by_cases h0 : 0 < countResults db id
  · rw [if_pos h0] at h
    exact Or.inl ⟨(Option.some.inj h).symm, Or.inl h0⟩
  · rw [if_neg h0] at h
    cases hlg : lookupLbGame db id with
    | none =>
        rw [hlg] at h
        exact absurd h (by simp)
    | some lbg =>
        rw [hlg] at h
        replace h : (if get_battlesnakes_by_game_id db lbg.game_id = []
            then some db
            else if 0 < countResults db id then some db
            else if (entriesWithPlacements db lbg).length < 2 then some db
            else some (applyUpdates db id
              (calculate_rating_updates (entriesWithPlacements db lbg)))) =
            some db1 := h
        by_cases hemp : get_battlesnakes_by_game_id db lbg.game_id = []
        · rw [if_pos hemp] at h
          refine Or.inl ⟨(Option.some.inj h).symm, Or.inr ⟨lbg, rfl, ?_⟩⟩
          simp [entriesWithPlacements, hemp]
        · rw [if_neg hemp, if_neg h0] at h
          by_cases hlen : (entriesWithPlacements db lbg).length < 2
          · rw [if_pos hlen] at h
            exact Or.inl ⟨(Option.some.inj h).symm, Or.inr ⟨lbg, rfl, hlen⟩⟩
          · rw [if_neg hlen] at h
            exact Or.inr ⟨by omega, lbg, rfl, by omega,
              (Option.some.inj h).symm⟩

/-- C1: the rating engine is idempotent. If any match-result row already
exists for the leaderboard game, update_ratings returns success with the
state unchanged; after any successful invocation a further invocation is a
no-op, so over any number of deliveries of the job each participant entry
gains exactly one game: on the applying run the games_played of every
participant entry rises by exactly one (assuming the distinct participants
of one finished match), and every later run leaves it untouched. -/
theorem update_ratings_idempotent (db : Db) (id : Nat) (db1 : Db)
    (h : update_ratings db id = some db1) :
    (0 < countResults db id → db1 = db) ∧
    update_ratings db1 id = some db1 ∧
    (∀ n, (stepRatings id)^[n] db1 = db1) ∧
    (countResults db id = 0 → (participantIds db id).Nodup →
      2 ≤ (participantIds db id).length →
      ∀ eid e, lookupEntry db eid = some e → eid ∈ participantIds db id →
        ∃ e2, lookupEntry db1 eid = some e2 ∧
          e2.games_played = e.games_played + 1) := by
  have hfix : update_ratings db1 id = some db1 := by
    rcases update_ratings_cases db id db1 h with ⟨heq, _⟩ |
      ⟨h0, lbg, hlg, hlen, happ⟩
    · rw [heq]
      rw [heq] at h
      exact h
    · have hUne : calculate_rating_updates (entriesWithPlacements db lbg)
          ≠ [] := by
        intro h0l
        have hl := calculate_rating_updates_length
          (entriesWithPlacements db lbg)
        rw [h0l] at hl
        simp at hl
        omega
      have hpos : 0 < countResults db1 id := by
        rw [happ]
        exact countResults_applyUpdates_pos id _ db hUne
      exact update_ratings_of_pos db1 id hpos
  refine ⟨?_, hfix, ?_, ?_⟩
  · intro hpos
    have hfp := update_ratings_of_pos db id hpos
    rw [hfp] at h
    exact (Option.some.inj h).symm
  · intro n
    apply Function.iterate_fixed
    rw [stepRatings, hfix]
    rfl
  · intro h0 hnd hlen2 eid e hle hmem
    rcases update_ratings_cases db id db1 h with
      ⟨_, hpos | ⟨lbg, hlg, hlt⟩⟩ | ⟨_, lbg, hlg, _, happ⟩
    · omega
    · rw [participantIds, hlg] at hlen2
      rw [List.length_map] at hlen2
      omega
    · have hids : (calculate_rating_updates
          (entriesWithPlacements db lbg)).map
          (fun u => u.leaderboard_entry_id) = participantIds db id := by
        rw [calculate_rating_updates_ids, participantIds, hlg]
      have hentries : db1.entries = db.entries.map
          (applyAll (calculate_rating_updates
            (entriesWithPlacements db lbg))) := by
        rw [happ]
        exact applyUpdates_entries id _ db
      have heid : e.leaderboard_entry_id = eid := by
        rw [lookupEntry] at hle
        have := List.find?_some hle
        simpa using this
      refine ⟨applyAll (calculate_rating_updates
        (entriesWithPlacements db lbg)) e, ?_, ?_⟩
      · rw [lookupEntry, hentries, List.find?_map]
        have hcomp : ((fun x : LeaderboardEntry ℝ =>
            x.leaderboard_entry_id == eid) ∘
            applyAll (calculate_rating_updates
              (entriesWithPlacements db lbg))) =
            (fun x : LeaderboardEntry ℝ =>
              x.leaderboard_entry_id == eid) := by
          funext x
          simp [Function.comp, applyAll_id]
        rw [hcomp]
        rw [lookupEntry] at hle
        rw [hle]
        rfl
      · apply applyAll_games_played_succ
        · rw [hids]
          exact hnd
        · rw [hids, heid]
          exact hmem

/-- Concrete database used by the C1 witness: one result row already exists
for leaderboard game 1. -/
noncomputable def dbW : Db :=
  { lbGames := []
    gameSnakes := []
    entries := []
    results := [(⟨1, 2, 1, 0, 0, 0, 0, 0⟩ : LeaderboardGameResult)] }

/-- Witness for C1: at dbW the fast path fires and the state is unchanged. -/
theorem update_ratings_idempotent_witness :
    update_ratings dbW 1 = some dbW ∧
    ((0 < countResults dbW 1 → dbW = dbW) ∧
     update_ratings dbW 1 = some dbW ∧
     (∀ n, (stepRatings 1)^[n] dbW = dbW) ∧
     (countResults dbW 1 = 0 → (participantIds dbW 1).Nodup →
       2 ≤ (participantIds dbW 1).length →
       ∀ eid e, lookupEntry dbW eid = some e → eid ∈ participantIds dbW 1 →
         ∃ e2, lookupEntry dbW eid = some e2 ∧
           e2.games_played = e.games_played + 1)) := by
  have hW : update_ratings dbW 1 = some dbW := by
    apply update_ratings_of_pos
    have hc : countResults dbW 1 = 1 := rfl
    omega
  exact ⟨hW, update_ratings_idempotent dbW 1 dbW hW⟩

/-- C10: when a match participant has no placement, the rating engine uses
the total number of snakes in the game (last place) as its placement: the
pair entering the rating computation carries that default. -/
theorem update_ratings_missing_placement_defaults (db : Db)
    (lbg : LeaderboardGame) (gs : GameSnakeRow) (e : LeaderboardEntry ℝ)
    (hmem : gs ∈ get_battlesnakes_by_game_id db lbg.game_id)
    (hnone : gs.placement = none)
    (hentry : lookupEntryForSnake db lbg gs = some e) :
    placementFor gs (get_battlesnakes_by_game_id db lbg.game_id).length =
      ((get_battlesnakes_by_game_id db lbg.game_id).length : Int) ∧
    (e, ((get_battlesnakes_by_game_id db lbg.game_id).length : Int)) ∈
      entriesWithPlacements db lbg := by
  constructor
  · rw [placementFor, hnone]
    rfl
  · rw [entriesWithPlacements]
    apply List.mem_filterMap.mpr
    refine ⟨gs, hmem, ?_⟩
    rw [hentry]
    simp [placementFor, hnone]

/-- Leaderboard game used by the C10 witness. -/
def lbgW10 : LeaderboardGame := ⟨1, 3, 7, 0⟩

/-- Join row with a missing placement used by the C10 witness. -/
def gsW10 : GameSnakeRow := ⟨7, 4, none, some 5⟩

/-- Participant entry used by the C10 witness. -/
noncomputable def eW10 : LeaderboardEntry ℝ :=
  ⟨5, 3, 4, 25, 8, 1, 0, 0, 0, none, 0, 0⟩

/-- Database used by the C10 witness: game 7 has two snakes, one of them
with no placement. -/
noncomputable def dbW10 : Db :=
  ⟨[lbgW10], [gsW10, ⟨7, 6, some 1, some 9⟩], [eW10], []⟩

/-- Witness for C10: in a two-snake game the missing placement defaults to
two. -/
theorem update_ratings_missing_placement_defaults_witness :
    (gsW10 ∈ get_battlesnakes_by_game_id dbW10 lbgW10.game_id ∧
     gsW10.placement = none ∧
     lookupEntryForSnake dbW10 lbgW10 gsW10 = some eW10) ∧
    (placementFor gsW10
        (get_battlesnakes_by_game_id dbW10 lbgW10.game_id).length =
      ((get_battlesnakes_by_game_id dbW10 lbgW10.game_id).length : Int) ∧
     (eW10, ((get_battlesnakes_by_game_id dbW10 lbgW10.game_id).length :
        Int)) ∈ entriesWithPlacements dbW10 lbgW10) :=
  ⟨⟨by decide, rfl, rfl⟩,
   update_ratings_missing_placement_defaults dbW10 lbgW10 gsW10 eW10
     (by decide) rfl rfl⟩

/-- Split a character list at the first character satisfying stop: the first
component is the longest stop-free head, the second the remainder. -/
def spanNot (stop : Char → Bool) : List Char → List Char × List Char
  | [] => ([], [])
  | c :: cs =>
      if stop c then ([], c :: cs)
      else
        let p := spanNot stop cs
        (c :: p.1, p.2)

/-- Characters allowed in a URL scheme. -/
def isSchemeChar (c : Char) : Bool := c.isAlpha

/-- Parsed URL: scheme, host, optional port, path and optional query, as
character lists. -/
structure UrlC where
  scheme : List Char
  host : List Char
  port : Option (List Char)
  path : List Char
  query : Option (List Char)
deriving DecidableEq, Repr

/-- Recognise a leading double slash and return the remainder. -/
def startsSlashSlash : List Char → Option (List Char)
  | c1 :: c2 :: rest => if c1 = '/' ∧ c2 = '/' then some rest else none
  | _ => none

/-- Consume the scheme of a URL up to the literal scheme separator. -/
def splitScheme : List Char → Option (List Char × List Char)
  | [] => none
  | c :: cs =>
      if c = ':' then (startsSlashSlash cs).map (fun r => ([], r))
      else if isSchemeChar c then
        (splitScheme cs).map (fun p => (c :: p.1, p.2))
      else none

/-- Split the authority into host and optional port; the port must be a
nonempty digit string. -/
def parseAuthority (l : List Char) : Option (List Char × Option (List Char)) :=
  let hp := spanNot (fun c => c == ':') l
  if hp.1 = [] then none
  else
    match hp.2 with
    | [] => some (hp.1, none)
    | _ :: rest =>
        if rest ≠ [] ∧ rest.all Char.isDigit then some (hp.1, some rest)
        else none

/-- Split the part after the authority into path and optional query; an
absent path serialises as the root path. -/
def parsePathQuery (l : List Char) : Option (List Char × Option (List Char)) :=
  match l with
  | [] => some (['/'], none)
  | c :: rest =>
      if c = '?' then some (['/'], some rest)
      else if c = '/' then
        match (spanNot (fun d => d == '?') (c :: rest)).2,
            (spanNot (fun d => d == '?') (c :: rest)).1 with
        | [], pa => some (pa, none)
        | _ :: qs, pa => some (pa, some qs)
      else none

/-- Modelled from the spec: the URL parser of the url crate (an external
dependency), restricted to the absolute http(s)-style URLs the snake client
deals with: scheme, host, optional numeric port, path and query string. -/
def parseUrlChars (l : List Char) : Option UrlC :=
  match splitScheme l with
  | none => none
  | some (scheme, rest) =>
      if scheme = [] then none
      else
        let ar := spanNot (fun c => c == '/' || c == '?') rest
        match parseAuthority ar.1 with
        | none => none
        | some (host, port) =>
            match parsePathQuery ar.2 with
            | none => none
            | some (path, query) => some ⟨scheme, host, port, path, query⟩

/-- Serialised form of an optional port. -/
def portPart : Option (List Char) → List Char
  | some p => ':' :: p
  | none => []

/-- Serialised form of an optional query string. -/
def queryPart : Option (List Char) → List Char
  | some q => '?' :: q
  | none => []

/-- Serialisation of a parsed URL back to characters (url::to_string). -/
def serializeUrlChars (u : UrlC) : List Char :=
  u.scheme ++ (':' :: '/' :: '/' :: u.host) ++ portPart u.port ++
  u.path ++ queryPart u.query

/-- Model of Rust str::trim_end_matches with a single-character pattern. -/
def trimEndChar (l : List Char) (c : Char) : List Char :=
  (l.reverse.dropWhile (fun d => d == c)).reverse

/-- Translation of build_endpoint_url from snake_client.rs: parse the base,
trim trailing slashes of its path, append the endpoint segment and
serialise; on parse failure fall back to string concatenation with
trailing-slash trimming. -/
def build_endpoint_url (base endpoint : String) : String :=
  match parseUrlChars base.data with
  | some u =>
      ⟨serializeUrlChars
        { u with path := trimEndChar u.path '/' ++ ('/' :: endpoint.data) }⟩
  | none => ⟨trimEndChar base.data '/' ++ ('/' :: endpoint.data)⟩

/-- Two adjacent slashes somewhere in the list. -/
def hasDoubleSlash : List Char → Bool
  | a :: b :: rest => (a == '/' && b == '/') || hasDoubleSlash (b :: rest)
  | _ => false

/-- C3 counterexample: the parser accepts a base whose path already contains
an empty segment, and then the built URL parses to a path with a double
slash, refuting the no-double-slash part of the claim as stated. -/
theorem build_endpoint_url_counterexample :
    (parseUrlChars ("https://example.com/a//b" : String).data).isSome = true ∧
    build_endpoint_url "https://example.com/a//b" "move" =
      "https://example.com/a//b/move" ∧
    (parseUrlChars ("https://example.com/a//b/move" : String).data).map
      (fun u => hasDoubleSlash u.path) = some true :=
  ⟨by decide, by decide, by decide⟩

theorem spanNot_sound (stop : Char → Bool) : ∀ (l a b : List Char),
    spanNot stop l = (a, b) →
    l = a ++ b ∧ (∀ c ∈ a, stop c = false) ∧
    (∀ d r, b = d :: r → stop d = true)
  | [], a, b, h => by
      obtain ⟨rfl, rfl⟩ := Prod.mk.injEq .. ▸ h
      refine ⟨rfl, by simp, ?_⟩
      intro d r hdr
      exact absurd hdr (by simp)
  | c :: cs, a, b, h => by
      rw [spanNot] at h
      by_cases hc : stop c
      · rw [if_pos hc] at h
        obtain ⟨rfl, rfl⟩ := Prod.mk.injEq .. ▸ h
        refine ⟨rfl, by simp, ?_⟩
        intro d r hdr
        obtain ⟨rfl, rfl⟩ := List.cons.injEq .. ▸ hdr
        exact hc
      · rw [if_neg hc] at h
        obtain ⟨ha, hb⟩ := Prod.mk.injEq .. ▸ h
        obtain ⟨h1, h2, h3⟩ := spanNot_sound stop cs (spanNot stop cs).1
          (spanNot stop cs).2 rfl
        subst ha
        subst hb
        refine ⟨by rw [List.cons_append, ← h1], ?_, h3⟩
        intro c2 hc2
        rcases List.mem_cons.mp hc2 with h4 | h4
        · subst h4
          exact Bool.eq_false_iff.mpr hc
        · exact h2 c2 h4

theorem spanNot_append_stop (stop : Char → Bool) (d : Char) (r : List Char)
    (hd : stop d = true) : ∀ (a : List Char), (∀ c ∈ a, stop c = false) →
    spanNot stop (a ++ d :: r) = (a, d :: r)
  | [], _ => by
      rw [List.nil_append, spanNot, if_pos hd]
  | c :: a, h => by
      have hc : stop c = false := h c (List.mem_cons_self c a)
      rw [List.cons_append, spanNot, if_neg (by simp [hc]),
        spanNot_append_stop stop d r hd a
          (fun x hx => h x (List.mem_cons_of_mem c hx))]

theorem spanNot_all (stop : Char → Bool) : ∀ (l : List Char),
    (∀ c ∈ l, stop c = false) → spanNot stop l = (l, [])
  | [], _ => rfl
  | c :: l, h => by
      have hc : stop c = false := h c (List.mem_cons_self c l)
      rw [spanNot, if_neg (by simp [hc]),
        spanNot_all stop l (fun x hx => h x (List.mem_cons_of_mem c hx))]

theorem startsSlashSlash_sound : ∀ (l r : List Char),
    startsSlashSlash l = some r → l = '/' :: '/' :: r := by
  intro l r h
  match l with
  | [] => exact absurd h (by simp [startsSlashSlash])
  | [c] => exact absurd h (by simp [startsSlashSlash])
  | c1 :: c2 :: rest =>
      rw [startsSlashSlash] at h
      by_cases hc : c1 = '/' ∧ c2 = '/'
      · rw [if_pos hc] at h
        rw [hc.1, hc.2, Option.some.inj h]
      · rw [if_neg hc] at h
        exact absurd h (by simp)

theorem splitScheme_sound : ∀ (l s r : List Char),
    splitScheme l = some (s, r) →
    (∀ c ∈ s, isSchemeChar c = true) ∧ l = s ++ ':' :: '/' :: '/' :: r
  | [], s, r, h => by
      exact absurd h (by simp [splitScheme])
  | c :: cs, s, r, h => by
      rw [splitScheme] at h
      by_cases hc : c = ':'
      · rw [if_pos hc] at h
        cases hsl : startsSlashSlash cs with
        | none =>
            rw [hsl] at h
            exact absurd h (by simp)
        | some r2 =>
            rw [hsl] at h
            have h2 := Option.some.inj h
            have hs : s = [] := (congrArg Prod.fst h2).symm
            have hr : r = r2 := (congrArg Prod.snd h2).symm
            subst hs
            subst hr
            rw [List.nil_append, hc, startsSlashSlash_sound cs r hsl]
            exact ⟨by simp, rfl⟩
      · rw [if_neg hc] at h
        by_cases hsc : isSchemeChar c
        · rw [if_pos hsc] at h
          cases hss : splitScheme cs with
          | none =>
              rw [hss] at h
              exact absurd h (by simp)
          | some p =>
              rw [hss] at h
              have h2 := Option.some.inj h
              have hs : s = c :: p.1 := (congrArg Prod.fst h2).symm
              have hr : r = p.2 := (congrArg Prod.snd h2).symm
              obtain ⟨h3, h4⟩ := splitScheme_sound cs p.1 p.2 (by rw [hss])
              subst hs
              subst hr
              constructor
              · intro x hx
                rcases List.mem_cons.mp hx with h5 | h5
                · subst h5
                  exact hsc
                · exact h3 x h5
              · rw [List.cons_append, ← h4]
        · rw [if_neg hsc] at h
          exact absurd h (by simp)

theorem splitScheme_append : ∀ (s : List Char),
    (∀ c ∈ s, isSchemeChar c = true) → ∀ (r : List Char),
    splitScheme (s ++ ':' :: '/' :: '/' :: r) = some (s, r)
  | [], _, r => rfl
  | c :: s, h, r => by
      have hc : isSchemeChar c = true := h c (List.mem_cons_self c s)
      have hcne : ¬ c = ':' := by
        intro hceq
        subst hceq
        exact absurd hc (by decide)
      rw [List.cons_append, splitScheme, if_neg hcne, if_pos hc,
        splitScheme_append s (fun x hx => h x (List.mem_cons_of_mem c hx)) r]
      rfl

/-- Wellformedness of a parsed URL: exactly the shape every parser result
has, and what the serialiser needs for the parse to invert it. -/
structure WfUrl (u : UrlC) : Prop where
  scheme_ne : u.scheme ≠ []
  scheme_ok : ∀ c ∈ u.scheme, isSchemeChar c = true
  host_ne : u.host ≠ []
  host_colon : ∀ c ∈ u.host, (c == ':') = false
  host_slash : ∀ c ∈ u.host, (c == '/' || c == '?') = false
  port_ok : ∀ p, u.port = some p → p ≠ [] ∧ p.all Char.isDigit = true
  path_head : ∃ r, u.path = '/' :: r
  path_query : ∀ c ∈ u.path, (c == '?') = false

theorem parseAuthority_sound (l host : List Char) (po : Option (List Char))
    (h : parseAuthority l = some (host, po)) :
    host ≠ [] ∧ (∀ c ∈ host, (c == ':') = false ∧ c ∈ l) ∧
    (∀ p, po = some p → p ≠ [] ∧ p.all Char.isDigit = true) := by
  simp only [parseAuthority] at h
  obtain ⟨h1, h2, _⟩ := spanNot_sound (fun c => c == ':') l
    (spanNot (fun c => c == ':') l).1 (spanNot (fun c => c == ':') l).2 rfl
  by_cases h0 : (spanNot (fun c => c == ':') l).1 = []
  · rw [if_pos h0] at h
    exact absurd h (by simp)
  · rw [if_neg h0] at h
    cases hsp : (spanNot (fun c => c == ':') l).2 with
    | nil =>
        rw [hsp] at h
        replace h : some ((spanNot (fun c => c == ':') l).1,
          (none : Option (List Char))) = some (host, po) := h
        have hh := Option.some.inj h
        have hhost : (spanNot (fun c => c == ':') l).1 = host :=
          congrArg Prod.fst hh
        have hpo : (none : Option (List Char)) = po := congrArg Prod.snd hh
        refine ⟨by rw [← hhost]; exact h0, ?_, ?_⟩
        · intro c hc
          rw [← hhost] at hc
          refine ⟨h2 c hc, ?_⟩
          rw [h1]
          exact List.mem_append_left _ hc
        · intro p hp
          rw [← hpo] at hp
          exact absurd hp (by simp)
    | cons d rest =>
        rw [hsp] at h
        replace h : (if rest ≠ [] ∧ rest.all Char.isDigit
            then some ((spanNot (fun c => c == ':') l).1, some rest)
            else none) = some (host, po) := h
        by_cases hcond : rest ≠ [] ∧ rest.all Char.isDigit
        · rw [if_pos hcond] at h
          have hh := Option.some.inj h
          have hhost : (spanNot (fun c => c == ':') l).1 = host :=
            congrArg Prod.fst hh
          have hpo : some rest = po := congrArg Prod.snd hh
          refine ⟨by rw [← hhost]; exact h0, ?_, ?_⟩
          · intro c hc
            rw [← hhost] at hc
            refine ⟨h2 c hc, ?_⟩
            rw [h1]
            exact List.mem_append_left _ hc
          · intro p hp
            rw [← hpo] at hp
            have hpr : rest = p := Option.some.inj hp
            subst hpr
            exact ⟨hcond.1, hcond.2⟩
        · rw [if_neg hcond] at h
          exact absurd h (by simp)

theorem parsePathQuery_sound (l path : List Char) (qo : Option (List Char))
    (h : parsePathQuery l = some (path, qo)) :
    (∃ r, path = '/' :: r) ∧ (∀ c ∈ path, (c == '?') = false) := by
  match l with
  | [] =>
      replace h : some ((['/'] : List Char), (none : Option (List Char))) =
        some (path, qo) := h
      have hh := Option.some.inj h
      have hpath : (['/'] : List Char) = path := congrArg Prod.fst hh
      rw [← hpath]
      exact ⟨⟨[], rfl⟩, by decide⟩
  | c :: rest =>
      simp only [parsePathQuery] at h
      by_cases hq : c = '?'
      · rw [if_pos hq] at h
        replace h : some ((['/'] : List Char), some rest) =
          some (path, qo) := h
        have hpath : (['/'] : List Char) = path :=
          congrArg Prod.fst (Option.some.inj h)
        rw [← hpath]
        exact ⟨⟨[], rfl⟩, by decide⟩
      · rw [if_neg hq] at h
        by_cases hsl : c = '/'
        · rw [if_pos hsl] at h
          obtain ⟨h1, h2, h3⟩ := spanNot_sound (fun d => d == '?') (c :: rest)
            (spanNot (fun d => d == '?') (c :: rest)).1
            (spanNot (fun d => d == '?') (c :: rest)).2 rfl
          have hne : (spanNot (fun d => d == '?') (c :: rest)).1 ≠ [] := by
            intro h0
            rw [h0, List.nil_append] at h1
            have hstop := h3 c rest h1.symm
            rw [hsl] at hstop
            exact absurd hstop (by decide)
          cases hsp : (spanNot (fun d => d == '?') (c :: rest)).2 with
          | nil =>
              rw [hsp] at h
              replace h : some ((spanNot (fun d => d == '?') (c :: rest)).1,
                (none : Option (List Char))) = some (path, qo) := h
              have hpath : (spanNot (fun d => d == '?') (c :: rest)).1 =
                path := congrArg Prod.fst (Option.some.inj h)
              rw [← hpath]
              rw [hsp, List.append_nil] at h1
              refine ⟨⟨rest, by rw [← h1, hsl]⟩, h2⟩
          | cons d qs =>
              rw [hsp] at h
              replace h : some ((spanNot (fun d => d == '?') (c :: rest)).1,
                some qs) = some (path, qo) := h
              have hpath : (spanNot (fun d => d == '?') (c :: rest)).1 =
                path := congrArg Prod.fst (Option.some.inj h)
              rw [← hpath]
              refine ⟨?_, h2⟩
              obtain ⟨a, t, hat⟩ := List.exists_cons_of_ne_nil hne
              refine ⟨t, ?_⟩
              rw [hat] at h1
              rw [List.cons_append] at h1
              have hac : a = c := (List.cons.injEq .. ▸ h1.symm).1
              rw [hat, hac, hsl]
        · rw [if_neg hsl] at h
          exact absurd h (by simp)

theorem parseAuthority_roundtrip (host : List Char) (hne : host ≠ [])
    (hh : ∀ c ∈ host, (c == ':') = false) (po : Option (List Char))
    (hpo : ∀ p, po = some p → p ≠ [] ∧ p.all Char.isDigit = true) :
    parseAuthority (host ++ portPart po) = some (host, po) := by
  cases po with
  | none =>
      show parseAuthority (host ++ []) = _
      rw [List.append_nil]
      simp only [parseAuthority, spanNot_all (fun c => c == ':') host hh]
      rw [if_neg hne]
  | some p =>
      obtain ⟨hp1, hp2⟩ := hpo p rfl
      show parseAuthority (host ++ ':' :: p) = _
      simp only [parseAuthority,
        spanNot_append_stop (fun c => c == ':') ':' p (by decide) host hh]
      rw [if_neg hne]
      show (if p ≠ [] ∧ p.all Char.isDigit
        then some (host, some p) else none) = some (host, some p)
      rw [if_pos ⟨hp1, hp2⟩]

theorem parsePathQuery_roundtrip (path pr : List Char)
    (hpath : path = '/' :: pr) (hq : ∀ c ∈ path, (c == '?') = false)
    (qo : Option (List Char)) :
    parsePathQuery (path ++ queryPart qo) = some (path, qo) := by
  cases qo with
  | none =>
      show parsePathQuery (path ++ []) = _
      rw [List.append_nil, hpath]
      rw [hpath] at hq
      have hsp := spanNot_all (fun d => d == '?') _ hq
      show (match (spanNot (fun d => d == '?') ('/' :: pr)).2,
          (spanNot (fun d => d == '?') ('/' :: pr)).1 with
        | [], pa => some (pa, none)
        | _ :: qs, pa => some (pa, some qs)) = some ('/' :: pr, none)
      rw [hsp]
  | some q =>
      show parsePathQuery (path ++ '?' :: q) = _
      rw [hpath, List.cons_append]
      rw [hpath] at hq
      have hsp := spanNot_append_stop (fun d => d == '?') '?' q (by decide)
        _ hq
      show (match (spanNot (fun d => d == '?') ('/' :: (pr ++ '?' :: q))).2,
          (spanNot (fun d => d == '?') ('/' :: (pr ++ '?' :: q))).1 with
        | [], pa => some (pa, none)
        | _ :: qs, pa => some (pa, some qs)) = some ('/' :: pr, some q)
      rw [show ('/' :: (pr ++ '?' :: q)) = ('/' :: pr) ++ '?' :: q by
        rw [List.cons_append], hsp]

theorem isDigit_not_special (c : Char) (hd : c.isDigit = true) :
    (c == '/' || c == '?') = false := by
  have h1 : c ≠ '/' := by
    intro he
    subst he
    exact absurd hd (by decide)
  have h2 : c ≠ '?' := by
    intro he
    subst he
    exact absurd hd (by decide)
  simp [h1, h2]

/-- Every parse result is wellformed. -/
theorem parse_wf (l : List Char) (u : UrlC)
    (h : parseUrlChars l = some u) : WfUrl u := by
  rw [parseUrlChars] at h
  cases hss : splitScheme l with
  | none =>
      rw [hss] at h
      exact absurd h (by simp)
  | some sr =>
      obtain ⟨s, rest⟩ := sr
      rw [hss] at h
      replace h : (if s = [] then none
        else match parseAuthority
            (spanNot (fun c => c == '/' || c == '?') rest).1 with
          | none => none
          | some (host, port) =>
              match parsePathQuery
                  (spanNot (fun c => c == '/' || c == '?') rest).2 with
              | none => none
              | some (path, query) =>
                  some ⟨s, host, port, path, query⟩) = some u := h
      by_cases hs0 : s = []
      · rw [if_pos hs0] at h
        exact absurd h (by simp)
      · rw [if_neg hs0] at h
        cases hpa : parseAuthority
            (spanNot (fun c => c == '/' || c == '?') rest).1 with
        | none =>
            rw [hpa] at h
            exact absurd h (by simp)
        | some hp2 =>
            obtain ⟨host, port⟩ := hp2
            rw [hpa] at h
            replace h : (match parsePathQuery
                (spanNot (fun c => c == '/' || c == '?') rest).2 with
              | none => none
              | some (path, query) =>
                  some (⟨s, host, port, path, query⟩ : UrlC)) = some u := h
            cases hpq : parsePathQuery
                (spanNot (fun c => c == '/' || c == '?') rest).2 with
            | none =>
                rw [hpq] at h
                exact absurd h (by simp)
            | some pq2 =>
                obtain ⟨path, query⟩ := pq2
                rw [hpq] at h
                replace h : some (⟨s, host, port, path, query⟩ : UrlC)
                  = some u := h
                have hu : u = ⟨s, host, port, path, query⟩ :=
                  (Option.some.inj h).symm
                subst hu
                obtain ⟨hsch, _⟩ := splitScheme_sound l s rest hss
                obtain ⟨hhne, hhch, hport⟩ := parseAuthority_sound _ _ _ hpa
                obtain ⟨hphead, hpch⟩ := parsePathQuery_sound _ _ _ hpq
                obtain ⟨hsp1, hsp2, _⟩ := spanNot_sound
                  (fun c => c == '/' || c == '?') rest
                  (spanNot (fun c => c == '/' || c == '?') rest).1
                  (spanNot (fun c => c == '/' || c == '?') rest).2 rfl
                refine ⟨hs0, hsch, hhne, ?_, ?_, hport, hphead, hpch⟩
                · intro c hc
                  exact (hhch c hc).1
                · intro c hc
                  exact hsp2 c ((hhch c hc).2)

/-- The serialisation of a wellformed URL parses back to it. -/
theorem parse_serialize (u : UrlC) (h : WfUrl u) :
    parseUrlChars (serializeUrlChars u) = some u := by
  obtain ⟨pr, hpath⟩ := h.path_head
  have hser : serializeUrlChars u =
      u.scheme ++ ':' :: '/' :: '/' ::
        ((u.host ++ portPart u.port) ++ (u.path ++ queryPart u.query)) := by
    rw [serializeUrlChars]
    simp only [List.cons_append, List.nil_append, List.append_assoc]
  have hppchars : ∀ c ∈ u.host ++ portPart u.port,
      (c == '/' || c == '?') = false := by
    intro c hc
    rcases List.mem_append.mp hc with hc | hc
    · exact h.host_slash c hc
    · cases hpo : u.port with
      | none =>
          rw [hpo] at hc
          exact absurd hc (by simp [portPart])
      | some p =>
          rw [hpo] at hc
          replace hc : c ∈ ':' :: p := hc
          rcases List.mem_cons.mp hc with hc | hc
          · subst hc
            decide
          · exact isDigit_not_special c
              (List.all_eq_true.mp (h.port_ok p hpo).2 c hc)
  have hspan : spanNot (fun c => c == '/' || c == '?')
      ((u.host ++ portPart u.port) ++ (u.path ++ queryPart u.query)) =
      (u.host ++ portPart u.port, u.path ++ queryPart u.query) := by
    rw [hpath, List.cons_append]
    exact spanNot_append_stop _ '/' _ (by decide) _ hppchars
  rw [hser]
  simp only [parseUrlChars,
    splitScheme_append u.scheme h.scheme_ok _]
  rw [if_neg h.scheme_ne]
  simp only [hspan]
  simp only [parseAuthority_roundtrip u.host h.host_ne h.host_colon u.port
      h.port_ok,
    parsePathQuery_roundtrip u.path pr hpath h.path_query u.query]

theorem dropWhile_eq_drop (p : Char → Bool) : ∀ (l : List Char),
    ∃ k, l.dropWhile p = l.drop k
  | [] => ⟨0, rfl⟩
  | a :: l => by
      by_cases hp : p a
      · obtain ⟨k, hk⟩ := dropWhile_eq_drop p l
        refine ⟨k + 1, ?_⟩
        rw [List.dropWhile_cons, if_pos hp, hk]
        rfl
      · refine ⟨0, ?_⟩
        rw [List.dropWhile_cons, if_neg hp]
        rfl

theorem trimEndChar_eq_take (l : List Char) (c : Char) :
    ∃ m, trimEndChar l c = l.take m := by
  obtain ⟨k, hk⟩ := dropWhile_eq_drop (fun d => d == c) l.reverse
  refine ⟨l.reverse.length - k, ?_⟩
  rw [trimEndChar, hk, List.reverse_drop, List.reverse_reverse]

theorem trimEndChar_subset (l : List Char) (c : Char) :
    ∀ x ∈ trimEndChar l c, x ∈ l := by
  obtain ⟨m, hm⟩ := trimEndChar_eq_take l c
  rw [hm]
  exact fun x hx => List.take_subset m l hx

theorem dropWhile_head_false (p : Char → Bool) : ∀ (l : List Char)
    (d : Char) (t : List Char), l.dropWhile p = d :: t → p d = false
  | [], d, t, h => by simp at h
  | a :: l, d, t, h => by
      by_cases hp : p a
      · rw [List.dropWhile_cons, if_pos hp] at h
        exact dropWhile_head_false p l d t h
      · rw [List.dropWhile_cons, if_neg hp] at h
        have had : a = d := (List.cons.injEq .. ▸ h).1
        rw [← had]
        exact Bool.eq_false_iff.mpr hp

theorem trimEndChar_last_ne (l : List Char) (c : Char) :
    ∀ t d, trimEndChar l c = t ++ [d] → (d == c) = false := by
  intro t d h
  rw [trimEndChar] at h
  have h2 : l.reverse.dropWhile (fun x => x == c) = (t ++ [d]).reverse := by
    rw [← h, List.reverse_reverse]
  rw [List.reverse_append, List.reverse_singleton,
    List.singleton_append] at h2
  exact dropWhile_head_false (fun x => x == c) l.reverse d t.reverse h2

theorem hds_append : ∀ (a : List Char), hasDoubleSlash a = false →
    (∀ t d, a = t ++ [d] → (d == '/') = false) →
    ∀ (e : List Char), hasDoubleSlash ('/' :: e) = false →
    hasDoubleSlash (a ++ '/' :: e) = false
  | [], _, _, _, he => he
  | [x], _, hlast, e, he => by
      have hx : (x == '/') = false := hlast [] x rfl
      show hasDoubleSlash (x :: '/' :: e) = false
      rw [hasDoubleSlash]
      simp [hx, he]
  | x :: y :: a2, ha, hlast, e, he => by
      rw [hasDoubleSlash] at ha
      obtain ⟨ha1, ha2⟩ := Bool.or_eq_false_iff.mp ha
      have hlast2 : ∀ t d, (y :: a2) = t ++ [d] → (d == '/') = false := by
        intro t d htd
        exact hlast (x :: t) d (by rw [htd]; rfl)
      show hasDoubleSlash (x :: y :: (a2 ++ '/' :: e)) = false
      rw [hasDoubleSlash]
      have hrec : hasDoubleSlash ((y :: a2) ++ '/' :: e) = false :=
        hds_append (y :: a2) ha2 hlast2 e he
      rw [List.cons_append] at hrec
      simp [ha1, hrec]

/-- C3 amended: for every base URL the parser accepts and every endpoint
among start, move and end, the built URL parses back with the same scheme,
host, port and query; its path is the trimmed base path extended with the
endpoint segment, so it ends with the endpoint segment. It contains no
double slash provided the base path, after collapsing trailing slashes,
itself contains none. The claimed concrete example holds. -/
theorem build_endpoint_url_ok :
    (∀ (base : String) (u : UrlC), parseUrlChars base.data = some u →
      ∀ endpoint ∈ (["start", "move", "end"] : List String),
      ∃ u2, parseUrlChars (build_endpoint_url base endpoint).data = some u2 ∧
        u2.scheme = u.scheme ∧ u2.host = u.host ∧ u2.port = u.port ∧
        u2.query = u.query ∧
        u2.path = trimEndChar u.path '/' ++ '/' :: endpoint.data ∧
        ('/' :: endpoint.data) <:+ u2.path ∧
        (hasDoubleSlash (trimEndChar u.path '/') = false →
          hasDoubleSlash u2.path = false)) ∧
    build_endpoint_url "https://example.com/api?token=secret" "move" =
      "https://example.com/api/move?token=secret" := by
  constructor
  · intro base u hparse endpoint hep
    have hwf := parse_wf base.data u hparse
    obtain ⟨pr, hpath⟩ := hwf.path_head
    have hend1 : ∀ c ∈ endpoint.data, (c == '?') = false := by
      fin_cases hep <;> decide
    have hend2 : hasDoubleSlash ('/' :: endpoint.data) = false := by
      fin_cases hep <;> decide
    obtain ⟨m, hm⟩ := trimEndChar_eq_take u.path '/'
    have hnewhead : ∃ r,
        trimEndChar u.path '/' ++ '/' :: endpoint.data = '/' :: r := by
      cases m with
      | zero => exact ⟨endpoint.data, by rw [hm]; rfl⟩
      | succ m2 =>
          rw [hm, hpath, List.take_succ_cons]
          exact ⟨pr.take m2 ++ '/' :: endpoint.data, rfl⟩
    have hnewq : ∀ c ∈ trimEndChar u.path '/' ++ '/' :: endpoint.data,
        (c == '?') = false := by
      intro c hc
      rcases List.mem_append.mp hc with hc | hc
      · exact hwf.path_query c (trimEndChar_subset u.path '/' c hc)
      · rcases List.mem_cons.mp hc with hc | hc
        · subst hc
          decide
        · exact hend1 c hc
    have hwf2 : WfUrl { u with
        path := trimEndChar u.path '/' ++ '/' :: endpoint.data } :=
      { scheme_ne := hwf.scheme_ne
        scheme_ok := hwf.scheme_ok
        host_ne := hwf.host_ne
        host_colon := hwf.host_colon
        host_slash := hwf.host_slash
        port_ok := hwf.port_ok
        path_head := hnewhead
        path_query := hnewq }
    refine ⟨{ u with path := trimEndChar u.path '/' ++ '/' :: endpoint.data },
      ?_, rfl, rfl, rfl, rfl, rfl, ⟨trimEndChar u.path '/', rfl⟩, ?_⟩
    · have hbuild : (build_endpoint_url base endpoint).data =
          serializeUrlChars { u with
            path := trimEndChar u.path '/' ++ '/' :: endpoint.data } := by
        simp only [build_endpoint_url, hparse]
      rw [hbuild]
      exact parse_serialize _ hwf2
    · intro hnds
      show hasDoubleSlash
        (trimEndChar u.path '/' ++ '/' :: endpoint.data) = false
      exact hds_append (trimEndChar u.path '/') hnds
        (trimEndChar_last_ne u.path '/') endpoint.data hend2
  · decide

/-- Witness for C3 at a concrete base and endpoint. -/
theorem build_endpoint_url_ok_witness :
    parseUrlChars ("http://h/a?q" : String).data =
      some ⟨['h', 't', 't', 'p'], ['h'], none, ['/', 'a'], some ['q']⟩ ∧
    ("move" : String) ∈ (["start", "move", "end"] : List String) ∧
    (∃ u2, parseUrlChars
        (build_endpoint_url "http://h/a?q" "move").data = some u2 ∧
      u2.scheme = (⟨['h', 't', 't', 'p'], ['h'], none, ['/', 'a'],
        some ['q']⟩ : UrlC).scheme ∧
      u2.host = (⟨['h', 't', 't', 'p'], ['h'], none, ['/', 'a'],
        some ['q']⟩ : UrlC).host ∧
      u2.port = (⟨['h', 't', 't', 'p'], ['h'], none, ['/', 'a'],
        some ['q']⟩ : UrlC).port ∧
      u2.query = (⟨['h', 't', 't', 'p'], ['h'], none, ['/', 'a'],
        some ['q']⟩ : UrlC).query ∧
      u2.path = trimEndChar (⟨['h', 't', 't', 'p'], ['h'], none, ['/', 'a'],
        some ['q']⟩ : UrlC).path '/' ++ '/' :: ("move" : String).data ∧
      ('/' :: ("move" : String).data) <:+ u2.path ∧
      (hasDoubleSlash (trimEndChar (⟨['h', 't', 't', 'p'], ['h'], none,
          ['/', 'a'], some ['q']⟩ : UrlC).path '/') = false →
        hasDoubleSlash u2.path = false)) :=
  ⟨by decide, by decide,
   build_endpoint_url_ok.1 "http://h/a?q"
     ⟨['h', 't', 't', 'p'], ['h'], none, ['/', 'a'], some ['q']⟩
     (by decide) "move" (by decide)⟩

end Arena
